import Mathlib

/-!
Verification of the hexalink-solver deduction engine.

This file shallowly embeds the data model and the operations of the
hexagonal Slitherlink solver (side statuses, game moves, the side graph
with vertices, link traversal, the game-state mutation `setSideStatus`,
the input validation, the solver's pending-move queue discipline, and the
faction propagator), and proves or refutes the specification claims about
them.

Conventions of the embedding:
- Machine objects (sides, vertices, cells) are referred to by their
  integer ids; the object graphs built by the topology builder are
  represented by structures of lookup functions.
- Python exceptions (failed assertions, TypeError from a wrong call
  signature, ValueError from input validation) are modelled with
  `Option`/`Except`: `none`/`error` means the call raises.
- The module-level random number generator (used only for cosmetic color
  tie-breaking) is modelled by an explicit oracle of choice functions.
- Unbounded recursion over the finite board (flood traversals) is
  modelled with a fuel parameter and the fuel is instantiated with a
  bound that provably suffices.
-/

set_option maxRecDepth 10000

namespace Hexa

/-- Tri-state status of a side, from `side_status.py`: UNSET, ACTIVE, BLANK. -/
inductive SideStatus where
  | UNSET
  | ACTIVE
  | BLANK
deriving DecidableEq

/-- Faction of a cell, from `cell_faction.py`: INSIDE, OUTSIDE, UNKNOWN. -/
inductive CellFaction where
  | INSIDE
  | OUTSIDE
  | UNKNOWN
deriving DecidableEq

/-- `CellFaction.opposite` from `cell_faction.py`: swaps INSIDE and OUTSIDE,
fixes UNKNOWN. -/
def CellFaction.opposite : CellFaction → CellFaction
  | .INSIDE => .OUTSIDE
  | .OUTSIDE => .INSIDE
  | .UNKNOWN => .UNKNOWN

/-- The six side directions of a hexagon, from `hex_dir.py` (`HexSideDir`),
in their enum iteration order UL, UR, R, LR, LL, L. -/
inductive HexSideDir where
  | UL
  | UR
  | R
  | LR
  | LL
  | L
deriving DecidableEq

/-- Iteration order of the `HexSideDir` enum. -/
def HexSideDir.all : List HexSideDir :=
  [.UL, .UR, .R, .LR, .LL, .L]

/-- A game move, from `hex_game_move.py`. The explanation message `msg` is
presentation-only text and is omitted from the embedding. -/
structure HexGameMove where
  sideId : Nat
  newStatus : SideStatus
  prevStatus : Option SideStatus
  priority : Nat
  fromSolver : Bool
deriving DecidableEq

/-- `HexGameMove.__init__` from `hex_game_move.py`. It asserts that neither
`newStatus` nor `prevStatus` is `None`; a firing assertion is modelled as
`none`. The `priority` slot holds the raw integer value of the argument
(the Python callers pass `IntEnum` members or, in one buggy call site,
a `SideStatus`). -/
def HexGameMove.make (sideId : Nat) (newStatus : Option SideStatus)
    (prevStatus : Option SideStatus) (priority : Nat) (fromSolver : Bool) :
    Option HexGameMove :=
  match newStatus, prevStatus with
  | some n, some p => some ⟨sideId, n, some p, priority, fromSolver⟩
  | _, _ => none

/-- `HexGameMove.reverse` from `hex_game_move.py`: builds a new move through
`HexGameMove.__init__` with `newStatus` and `prevStatus` swapped, so the
constructor's assertions apply again. -/
def HexGameMove.reverse (m : HexGameMove) : Option HexGameMove :=
  HexGameMove.make m.sideId m.prevStatus (some m.newStatus) m.priority m.fromSolver

namespace MovePriority

/-- `MovePriority.HIGHEST` from `hex_game_move.py`. -/
def HIGHEST : Nat := 1

/-- `MovePriority.HIGH` from `hex_game_move.py`. -/
def HIGH : Nat := 2

/-- `MovePriority.NORMAL` from `hex_game_move.py`. -/
def NORMAL : Nat := 3

/-- `MovePriority.LOW` from `hex_game_move.py`. -/
def LOW : Nat := 4

/-- `MovePriority.LOWEST` from `hex_game_move.py`. -/
def LOWEST : Nat := 5

end MovePriority

/-!
## The side graph

The topology builder (`hex_game.py`) creates sides and vertices once and
shares them between cells.  For the side-level algorithms all that matters
is: each side has two endpoint vertices (`HexSide.endpoints`), and each
vertex knows the list of sides registered to it (`HexVertex.sides`).
Statuses are kept separately as a function from side id to status, since
they mutate while the topology is immutable after construction.
-/

/-- The immutable side/vertex incidence data of a built board: `numSides`
sides with ids below `numSides`, `numVerts` vertices with ids below
`numVerts`; `sideVerts s` is the pair of endpoint vertex ids of side `s`
(`HexSide.endpoints`), and `vertSides v` is the list of side ids registered
at vertex `v` (`HexVertex.sides`). -/
structure SideGraph where
  numSides : Nat
  numVerts : Nat
  sideVerts : Nat → Nat × Nat
  vertSides : Nat → List Nat

/-- Well-formedness of a built board, guaranteed by the topology builder:
side ids and vertex ids are in range, the two endpoints of a side are
distinct, a side is registered exactly at its two endpoint vertices, the
registration lists have no duplicates, and two distinct sides share at most
one vertex. -/
structure SideGraph.WF (g : SideGraph) : Prop where
  endsLt : ∀ s, s < g.numSides → (g.sideVerts s).1 < g.numVerts ∧ (g.sideVerts s).2 < g.numVerts
  endsNe : ∀ s, s < g.numSides → (g.sideVerts s).1 ≠ (g.sideVerts s).2
  memVertSides : ∀ v s, v < g.numVerts →
    (s ∈ g.vertSides v ↔ s < g.numSides ∧ ((g.sideVerts s).1 = v ∨ (g.sideVerts s).2 = v))
  vertSidesNodup : ∀ v, (g.vertSides v).Nodup
  sharedUnique : ∀ s t, s < g.numSides → t < g.numSides → s ≠ t →
    ∀ v w, ((g.sideVerts s).1 = v ∨ (g.sideVerts s).2 = v) →
      ((g.sideVerts t).1 = v ∨ (g.sideVerts t).2 = v) →
      ((g.sideVerts s).1 = w ∨ (g.sideVerts s).2 = w) →
      ((g.sideVerts t).1 = w ∨ (g.sideVerts t).2 = w) → v = w

/-- `HexVertex.getAllSidesExcept` from `hex_vertex.py`: the sides at a
vertex except the one with the given id. -/
def SideGraph.getAllSidesExcept (g : SideGraph) (v : Nat) (exceptSideId : Nat) : List Nat :=
  (g.vertSides v).filter (fun s => s ≠ exceptSideId)

/-- `HexVertex.getActiveSidesExcept` from `hex_vertex.py`: the ACTIVE sides
at a vertex except the one with the given id. -/
def SideGraph.getActiveSidesExcept (g : SideGraph) (st : Nat → SideStatus)
    (v : Nat) (exceptSideId : Nat) : List Nat :=
  (g.vertSides v).filter (fun s => s ≠ exceptSideId ∧ st s = .ACTIVE)

/-- `HexSide.getAllConnectedSides` from `hex_side.py`: the sides sharing an
endpoint with `s`, listed endpoint 0 first. -/
def SideGraph.getAllConnectedSides (g : SideGraph) (s : Nat) : List Nat :=
  g.getAllSidesExcept (g.sideVerts s).1 s ++ g.getAllSidesExcept (g.sideVerts s).2 s

/-- `HexSide.getAllActiveConnectedSides` from `hex_side.py`. -/
def SideGraph.getAllActiveConnectedSides (g : SideGraph) (st : Nat → SideStatus)
    (s : Nat) : List Nat :=
  g.getActiveSidesExcept st (g.sideVerts s).1 s ++ g.getActiveSidesExcept st (g.sideVerts s).2 s

/-- `HexSide.getConnectionVertex` from `hex_side.py`: for a side `t`
connected to `s`, the shared vertex, preferring `s`'s endpoint 0; `none`
when the sides are not connected. -/
def SideGraph.getConnectionVertex (g : SideGraph) (s t : Nat) : Option Nat :=
  if t ∈ g.getAllConnectedSides s then
    if (g.sideVerts t).1 = (g.sideVerts s).1 ∨ (g.sideVerts t).2 = (g.sideVerts s).1 then
      some (g.sideVerts s).1
    else if (g.sideVerts t).1 = (g.sideVerts s).2 ∨ (g.sideVerts t).2 = (g.sideVerts s).2 then
      some (g.sideVerts s).2
    else none
  else none

/-- `HexSide.isLinkedTo` from `hex_side.py`: `s` is UNSET or ACTIVE, the
statuses agree (unless `ignoreStatus`), the sides share a vertex, and every
other side at that shared vertex is BLANK. -/
def SideGraph.isLinkedTo (g : SideGraph) (st : Nat → SideStatus)
    (s t : Nat) (ignoreStatus : Bool) : Bool :=
  if st s = .ACTIVE ∨ st s = .UNSET then
    if ignoreStatus ∨ st s = st t then
      match g.getConnectionVertex s t with
      | some v => (g.vertSides v).all (fun u => u = s ∨ u = t ∨ st u = .BLANK)
      | none => false
    else false
  else false

/-- `HexSide.getAllLinkedSides` from `hex_side.py` (with the default
`ignoreStatus=False`): the connected sides that are linked to `s`. -/
def SideGraph.getAllLinkedSides (g : SideGraph) (st : Nat → SideStatus) (s : Nat) : List Nat :=
  (g.getAllConnectedSides s).filter (fun t => g.isLinkedTo st s t false)

/-!
## Input validation (`HexGame.validateInputData`)
-/

/-- The descending loop in `HexGame.validateInputData` computing the total
cell count: starting with `numOfColsInRow = rows`, iterate `row` from
`rows // 2` down to `0`, adding `numOfColsInRow` for the middle row and
`numOfColsInRow * 2` otherwise, decrementing `numOfColsInRow` each step. -/
def totalCellsGo (mid : Nat) (numCols : Nat) : Nat → Nat
  | 0 => if 0 = mid then numCols else numCols * 2
  | row + 1 =>
    (if row + 1 = mid then numCols else numCols * 2) + totalCellsGo mid (numCols - 1) row

/-- Total number of cells of a board with `rows` rows, as computed by the
loop in `HexGame.validateInputData`. -/
def totalCells (rows : Nat) : Nat :=
  totalCellsGo (rows / 2) rows (rows / 2)

/-- `HexGame.validateInputData` from `hex_game.py`.  The character test is
Python's `c != "." and not c.isnumeric()`; `str.isnumeric` consults the
Unicode tables of the Python runtime (it is true of every Unicode numeric
character, the ASCII digits 0-9 included), so it enters the embedding as
an explicit parameter `isnumeric`.  Note the code accepts every numeric
character, not only the digits 0 to 6. -/
def validateInputData (isnumeric : Char → Bool) (rows : Nat)
    (cellDataStr : Option (List Char)) : Except String Unit :=
  if rows < 3 ∨ rows % 2 = 0 then
    .error "The number of rows must be an odd number greater than 1."
  else
    match cellDataStr with
    | none => .ok ()
    | some s =>
      if totalCells rows ≠ s.length then
        .error "The given data string has invalid length."
      else if s.any (fun c => c ≠ '.' ∧ ¬ isnumeric c) then
        .error "The given data string contains an invalid character."
      else .ok ()

/-- Success test for an `Except` result. -/
def exceptOk {ε α : Type} : Except ε α → Bool
  | .ok _ => true
  | .error _ => false

/-!
## Link traversal (`side_link.py`)

`SideLink.fromSide` collects, by recursive flood, the set of sides linked
to a seed (`getLink` in the source); `SideLink.isSameLink` runs the same
flood but short-circuits when the target is found (`findSideInLink`).
The Python recursion is bounded by the finite set of sides; the embedding
makes the bound explicit with a fuel parameter instantiated at
`sideFuel g = g.numSides + 1`, which suffices because every recursive call
under it has strictly enlarged the visited set with a side of the board.
-/

/-- Default fuel for the link traversals of a board. -/
def sideFuel (g : SideGraph) : Nat :=
  g.numSides + 1

/-- `getLink` inside `SideLink.fromSide` from `side_link.py`: flood from
`s`, skipping already-visited sides and sides rejected by the filter `F`,
recursing into all linked sides.  The Python code mutates one `groupSet`
in place; the embedding threads it through the fold. -/
def getLinkSet (g : SideGraph) (st : Nat → SideStatus) (F : Nat → Bool) :
    Nat → Nat → Finset Nat → Finset Nat
  | 0, _, acc => acc
  | fuel + 1, s, acc =>
    if s ∈ acc then acc
    else if ¬ F s then acc
    else (g.getAllLinkedSides st s).foldl (fun a t => getLinkSet g st F fuel t a) (insert s acc)

/-- `findSideInLink` inside `SideLink.isSameLink` from `side_link.py`:
same flood as `getLinkSet` (with no filter), returning `true` as soon as
the target is reached.  The visited set is returned as well, mirroring the
in-place mutation of `groupSet`. -/
def findSideInLink (g : SideGraph) (st : Nat → SideStatus) :
    Nat → Nat → Nat → Finset Nat → Bool × Finset Nat
  | 0, _, _, acc => (false, acc)
  | fuel + 1, s, target, acc =>
    if s = target then (true, acc)
    else if s ∈ acc then (false, acc)
    else
      (g.getAllLinkedSides st s).foldl
        (fun p t => if p.1 then p else findSideInLink g st fuel t target p.2)
        (false, insert s acc)

/-- `SideLink.isSameLink` from `side_link.py`: false when either side is
BLANK or their statuses differ, otherwise the short-circuiting flood from
`side1` looking for `side2`. -/
def isSameLink (g : SideGraph) (st : Nat → SideStatus) (side1 side2 : Nat) : Bool :=
  if st side1 = .BLANK ∨ st side2 = .BLANK then false
  else if st side1 ≠ st side2 then false
  else (findSideInLink g st (sideFuel g) side1 side2 ∅).1

/-- The set of sides collected by the full materializing link traversal of
`SideLink.fromSide` (no filter function) started at `s`. -/
def linkTraversal (g : SideGraph) (st : Nat → SideStatus) (s : Nat) : Finset Nat :=
  getLinkSet g st (fun _ => true) (sideFuel g) s ∅

/-!
## Link validation (`SideLink._validate`, `fromList`, `fromSide`)
-/

/-- A validated side link, from `side_link.py`: the member sides, the
internal connecting vertices, the two endpoint vertices, and the member
side touching each endpoint. -/
structure SideLink where
  sides : Finset Nat
  linkVertices : List Nat
  endpoints : List Nat
  endLink : List Nat
deriving DecidableEq

/-- The number of member sides of `l` whose endpoints hit vertex `v`,
mirroring the `vertexConnCount` dictionary of `SideLink._validate` (each
side contributes one count per endpoint slot equal to `v`). -/
def vertexConnCount (g : SideGraph) (l : List Nat) (v : Nat) : Nat :=
  (l.map (fun s =>
    (if (g.sideVerts s).1 = v then 1 else 0) + (if (g.sideVerts s).2 = v then 1 else 0))).sum

/-- The vertices touched by at least one member side, in first-touch
order without duplicates (the keys of the `vertexConnCount` dictionary). -/
def touchedVerts (g : SideGraph) (l : List Nat) : List Nat :=
  (l.flatMap (fun s => [(g.sideVerts s).1, (g.sideVerts s).2])).dedup

/-- `SideLink._validate` from `side_link.py` on a duplicate-free list of
side ids: fails on an empty list, a BLANK first side, a status differing
from the first side's, a vertex hit three or more times, an endpoint count
other than 2, or an internal-vertex count other than `n - 1`; on success
returns the internal vertices, the endpoints, and the end links. -/
def validateLink (g : SideGraph) (st : Nat → SideStatus) (l : List Nat) :
    Option (List Nat × List Nat × List Nat) :=
  match l with
  | [] => none
  | s0 :: _ =>
    if st s0 = .BLANK then none
    else if ¬ l.all (fun s => st s = st s0) then none
    else if ¬ (touchedVerts g l).all (fun v => vertexConnCount g l v ≤ 2) then none
    else if ((touchedVerts g l).filter (fun v => vertexConnCount g l v = 1)).length ≠ 2 then none
    else if ((touchedVerts g l).filter (fun v => vertexConnCount g l v = 2)).length
        ≠ l.length - 1 then none
    else
      some ((touchedVerts g l).filter (fun v => vertexConnCount g l v = 2),
        (touchedVerts g l).filter (fun v => vertexConnCount g l v = 1),
        ((touchedVerts g l).filter (fun v => vertexConnCount g l v = 1)).filterMap (fun v =>
          l.find? (fun s => (g.sideVerts s).1 = v ∨ (g.sideVerts s).2 = v)))

/-- The canonical duplicate-free listing of a finite set of side ids
(`list(sides)` on a Python set; the iteration order of a Python set is
arbitrary and nothing below depends on the order).  Every side of a built
board has id below `g.numSides`, so enumerating the board ids is
exhaustive. -/
def sideList (g : SideGraph) (sides : Finset Nat) : List Nat :=
  (List.range g.numSides).filter (fun s => s ∈ sides)

/-- `SideLink.fromList` from `side_link.py`: validate the given set of
sides and build the link, or return `None`. -/
def SideLink.fromList (g : SideGraph) (st : Nat → SideStatus) (sides : Finset Nat) :
    Option SideLink :=
  match validateLink g st (sideList g sides) with
  | some (lv, ep, el) => some ⟨sides, lv, ep, el⟩
  | none => none

/-- The optional filter function of `SideLink.fromSide` as a total
predicate: absent means every side passes. -/
def optFilter (F : Option (Nat → Bool)) : Nat → Bool :=
  fun x => match F with | some f => f x | none => true

/-- The seed pre-check of `SideLink.fromSide`: a present filter rejecting
the seed. -/
def seedRejected (F : Option (Nat → Bool)) (s : Nat) : Bool :=
  match F with | some f => ¬ f s | none => false

/-- `SideLink.fromSide` from `side_link.py`: reject a BLANK seed or a seed
rejected by the filter, then flood-collect the linked sides (restricted by
the filter) and validate the collected set. -/
def SideLink.fromSide (g : SideGraph) (st : Nat → SideStatus) (F : Option (Nat → Bool))
    (s : Nat) : Option SideLink :=
  if st s = .BLANK then none
  else if seedRejected F s then none
  else
    match validateLink g st (sideList g (getLinkSet g st (optFilter F) (sideFuel g) s ∅)) with
    | some (lv, ep, el) =>
      some ⟨getLinkSet g st (optFilter F) (sideFuel g) s ∅, lv, ep, el⟩
    | none => none

/-!
## Cell-local unset link partition (`HexCell.getUnsetSideLinks`)

`getUnsetSideLinks` floods from each UNSET side of the cell with the
filter `lambda side: side.isUnset and side in self.sides`.  Note that the
Python filter evaluates the bound method `side.isUnset` without calling
it; a bound method object is always truthy, so the filter reduces to
membership in the cell's six sides.  The embedding reproduces exactly
that. -/

/-- The filter `getUnsetSideLinks` passes to `fromSide`: in the source it
is `lambda side: side.isUnset and side in self.sides`, and since the bound
method `side.isUnset` is truthy the filter reduces to membership in the
cell's sides. -/
def cellFilter (cellSides : List Nat) : Nat → Bool :=
  fun x => decide (x ∈ cellSides)

/-- One iteration of the loop of `HexCell.getUnsetSideLinks`: skip sides
already absorbed into an earlier link and non-UNSET sides; otherwise flood
from the side with the membership filter, and when validation succeeds
keep the link and mark its members as finished. -/
def unsetLinkStep (g : SideGraph) (st : Nat → SideStatus) (cellSides : List Nat)
    (p : List SideLink × Finset Nat) (side : Nat) : List SideLink × Finset Nat :=
  if side ∉ p.2 ∧ st side = .UNSET then
    match SideLink.fromSide g st (some (cellFilter cellSides)) side with
    | some l => (p.1 ++ [l], p.2 ∪ l.sides)
    | none => p
  else p

/-- `HexCell.getUnsetSideLinks` from `hex_cell.py`: iterate the cell's
sides in slot order, accumulating links and the finished-side set. -/
def getUnsetSideLinks (g : SideGraph) (st : Nat → SideStatus) (cellSides : List Nat) :
    List SideLink :=
  (cellSides.foldl (unsetLinkStep g st cellSides) ([], ∅)).1

/-!
## Game state and `HexGame.setSideStatus`

The mutable per-side data of a board is its status and its cosmetic color
index; applied moves are appended to the move history.  The `isDirty`
repaint flags are presentation-only and omitted.  The module-level RNG of
`helpers.py` (`random.choice` in `getLeastUsedColor`) and the arbitrary
element taken by `set.pop()` in the color-merge code are modelled by an
explicit oracle. -/

/-- Pointwise update of a function on `Nat`. -/
def updFn {α : Type} (f : Nat → α) (i : Nat) (a : α) : Nat → α :=
  fun j => if j = i then a else f j

/-- Oracle for the two sources of nondeterminism in the color bookkeeping:
`pickColor` models `random.choice` over the least-used color indexes, and
`pickElem` models `set.pop()` on a set of side ids (given its canonical
listing). -/
structure Oracle where
  pickColor : List Nat → Nat
  pickElem : List Nat → Nat

/-- Number of entries of `colors.SIDE_COLORS`. -/
def NUM_SIDE_COLORS : Nat := 8

/-- The mutable game state: per-side status, per-side color index, and the
append-only move history (`HexGame.moveHistory`). -/
structure GameState where
  st : Nat → SideStatus
  colorIdx : Nat → Nat
  history : List HexGameMove

/-- `helpers.getLeastUsedColor`: count, over all sides of the board, how
often each of the 8 palette slots is used by an ACTIVE side (skipping the
optional excluded slot), and pick — by the RNG oracle — among the slots
used least often (collected in ascending slot order). -/
def getLeastUsedColor (g : SideGraph) (orc : Oracle) (st : Nat → SideStatus)
    (col : Nat → Nat) (exceptColorIdx : Option Nat) : Nat :=
  let exceptC := exceptColorIdx.map (· % NUM_SIDE_COLORS)
  let skip : Nat → Bool := fun c => match exceptC with
    | some e => decide (c = e)
    | none => false
  let cnt : Nat → Nat := fun c =>
    ((List.range g.numSides).filter (fun s =>
      st s = .ACTIVE ∧ col s % NUM_SIDE_COLORS = c ∧ ¬ skip (col s % NUM_SIDE_COLORS))).length
  let candidates := (List.range NUM_SIDE_COLORS).filter (fun c =>
    ¬ skip c ∧ (List.range NUM_SIDE_COLORS).all (fun c2 => skip c2 ∨ cnt c ≤ cnt c2))
  orc.pickColor candidates

/-- The worklist loop of `helpers.getLinkItems`: pop a side, record it if
new, and push its ACTIVE connected sides. -/
def getLinkItemsGo (g : SideGraph) (st : Nat → SideStatus) :
    Nat → List Nat → Finset Nat → Finset Nat
  | 0, _, ret => ret
  | _ + 1, [], ret => ret
  | fuel + 1, s :: stack, ret =>
    if s ∈ ret then getLinkItemsGo g st fuel stack ret
    else getLinkItemsGo g st fuel (g.getAllActiveConnectedSides st s ++ stack) (insert s ret)

/-- `helpers.getLinkItems`: the set of side ids of the ACTIVE link through
`s` (empty when `s` is not ACTIVE), computed by an explicit worklist. -/
def getLinkItems (g : SideGraph) (st : Nat → SideStatus) (s : Nat) : Finset Nat :=
  if st s ≠ .ACTIVE then ∅
  else getLinkItemsGo g st (5 * g.numSides + 5) [s] ∅

/-- Recolor every side of `ids` to color `c` (the `while len(...) > 0`
pop-and-recolor loops of `hex_game.py`). -/
def recolorAll (col : Nat → Nat) (ids : Finset Nat) (c : Nat) : Nat → Nat :=
  fun j => if j ∈ ids then c else col j

/-- The color recomputation of `HexGame._setSideActive` (everything before
the final `side.setStatus(ACTIVE)`), reading the statuses as they are
before the side turns ACTIVE: fresh least-used color when neither endpoint
has an ACTIVE side, inherited color when exactly one has, and a merge
recoloring the smaller of the two touching ACTIVE links when both have. -/
def activeColorCalc (g : SideGraph) (orc : Oracle) (st : Nat → SideStatus)
    (col : Nat → Nat) (sid : Nat) : Nat → Nat :=
  let act1 := g.getActiveSidesExcept st (g.sideVerts sid).1 sid
  let act2 := g.getActiveSidesExcept st (g.sideVerts sid).2 sid
  let col1 := if act1 = [] ∧ act2 = [] then
      updFn col sid (getLeastUsedColor g orc st col none)
    else col
  if act1 ≠ [] ∧ act2 = [] then updFn col1 sid (col1 (act1.headD 0))
  else if act1 = [] ∧ act2 ≠ [] then updFn col1 sid (col1 (act2.headD 0))
  else if act1 ≠ [] ∧ act2 ≠ [] then
    let link1 := getLinkItems g st (act1.headD 0)
    let link2 := getLinkItems g st (act2.headD 0)
    if link2.card ≤ link1.card then
      let newC := col1 (orc.pickElem (sideList g link1))
      recolorAll (updFn col1 sid newC) link2 newC
    else
      let newC := col1 (orc.pickElem (sideList g link2))
      recolorAll (updFn col1 sid newC) link1 newC
  else col1

/-- The color recomputation of `HexGame._setSideBlank` (everything after
the initial `side.setStatus(BLANK)`), reading the statuses with the side
already BLANK: when both endpoints still carry ACTIVE sides, recolor the
smaller of the two now-separated links with a fresh least-used color
excluding the larger link's color. -/
def blankColorCalc (g : SideGraph) (orc : Oracle) (stB : Nat → SideStatus)
    (col : Nat → Nat) (sid : Nat) : Nat → Nat :=
  let act1 := g.getActiveSidesExcept stB (g.sideVerts sid).1 sid
  let act2 := g.getActiveSidesExcept stB (g.sideVerts sid).2 sid
  if act1 ≠ [] ∧ act2 ≠ [] then
    let link1 := getLinkItems g stB (act1.headD 0)
    let link2 := getLinkItems g stB (act2.headD 0)
    if link2.card ≤ link1.card then
      let exceptC := col (orc.pickElem (sideList g link1))
      recolorAll col link2 (getLeastUsedColor g orc stB col (some exceptC))
    else
      let exceptC := col (orc.pickElem (sideList g link2))
      recolorAll col link1 (getLeastUsedColor g orc stB col (some exceptC))
  else col

/-- `HexGame._setSideActive`: recompute colors from the pre-update
statuses, then set the side's status to ACTIVE. -/
def setSideActive (g : SideGraph) (orc : Oracle) (gs : GameState) (sid : Nat) : GameState :=
  { st := updFn gs.st sid .ACTIVE
    colorIdx := activeColorCalc g orc gs.st gs.colorIdx sid
    history := gs.history }

/-- `HexGame._setSideBlank`: set the side's status to BLANK first, then
recompute colors from the updated statuses. -/
def setSideBlank (g : SideGraph) (orc : Oracle) (gs : GameState) (sid : Nat) : GameState :=
  let stB := updFn gs.st sid .BLANK
  { st := stB
    colorIdx := blankColorCalc g orc stB gs.colorIdx sid
    history := gs.history }

/-- `HexGame.setSideStatus` from `hex_game.py`: no-op when the side already
has the move's new status; no-op when the move records a previous status
that differs from the side's current status; otherwise append the move to
the history and dispatch on the new status. -/
def setSideStatus (g : SideGraph) (orc : Oracle) (gs : GameState) (m : HexGameMove) :
    GameState :=
  let cur := gs.st m.sideId
  if cur = m.newStatus then gs
  else if (match m.prevStatus with | some p => decide (p ≠ cur) | none => false : Bool) then gs
  else
    let gs1 : GameState := { gs with history := gs.history ++ [m] }
    match m.newStatus with
    | .ACTIVE => setSideActive g orc gs1 m.sideId
    | .BLANK => setSideBlank g orc gs1 m.sideId
    | .UNSET => { gs1 with st := updFn gs1.st m.sideId .UNSET }

/-- The integer value of a `SideStatus` (`IntEnum` values 0, 1, 2). -/
def SideStatus.intValue : SideStatus → Nat
  | .UNSET => 0
  | .ACTIVE => 1
  | .BLANK => 2

/-- `HexGame.toggleSideStatus` from `hex_game.py`.  The source builds
`HexGameMove(side.id, nextStatus, None, currentStatus)`: positionally that
passes `prevStatus = None` and the current status in the `priority` slot,
so `HexGameMove.__init__`'s assertion `prevStatus is not None` fires and
the call raises before any status change (modelled as `none`). -/
def toggleSideStatus (g : SideGraph) (orc : Oracle) (gs : GameState) (sid : Nat) :
    Option GameState :=
  let cur := gs.st sid
  let nextStatus : SideStatus :=
    match cur with
    | .UNSET => .ACTIVE
    | .ACTIVE => .BLANK
    | .BLANK => .UNSET
  match HexGameMove.make sid (some nextStatus) none cur.intValue false with
  | some m => some (setSideStatus g orc gs m)
  | none => none

/-- The intended status cycle of a manual toggle (UNSET to ACTIVE to BLANK
to UNSET), as described by the branch structure of
`HexGame.toggleSideStatus`. -/
def toggleCycle : SideStatus → SideStatus
  | .UNSET => .ACTIVE
  | .ACTIVE => .BLANK
  | .BLANK => .UNSET

/-- `undoOne` from `main.py`.  With a non-empty history the source pops the
last history entry, reverses it, and calls
`game.setSideStatus(reverseMove, appendToHistory=False)`; but
`HexGame.setSideStatus(self, gameMove)` accepts no `appendToHistory`
parameter, so the call raises `TypeError` (modelled as `none`) before any
state change.  With an empty history nothing happens. -/
def undoOne (gs : GameState) (nextMoveList : List HexGameMove) :
    Option (GameState × List HexGameMove) :=
  if gs.history.length > 0 then none
  else some (gs, nextMoveList)

/-!
## The solver's pending-move queue (`hex_solver.py`)

Every move the solver proposes is funnelled through
`HexSolver.addNextMove` (via `addNextMoves`) or `HexSolver.extendNextMoves`;
those are embedded exactly.  The rule catalogue that computes which sides
to propose is represented by an opaque-to-the-theorems list of proposals
computed from the current statuses — the theorems below hold for every
such catalogue, in particular for the real one, because `addNextMove`
re-checks each proposal against the current board. -/

/-- One call to `HexSolver.addNextMove`: the side (or `None`), the new
status and the priority. -/
structure MoveProposal where
  side : Option Nat
  newStatus : SideStatus
  priority : Nat

/-- The solver's queue state: the pending-move list, the processed-side-id
set, and a ghost log `enqLog` recording every move ever appended to the
pending list (used to state lifetime properties; it mirrors the appends
and is not read by the algorithms). -/
structure SolverState where
  nextMoveList : List HexGameMove
  processedSideIds : Finset Nat
  enqLog : List HexGameMove

/-- The queue state at `HexSolver.__init__`: empty list, empty set. -/
def SolverState.init : SolverState :=
  ⟨[], ∅, []⟩

/-- `HexSolver.addNextMove`: only a non-`None`, currently UNSET side whose
id is not yet in `processedSideIds` and a non-UNSET new status are
enqueued; the created move records `prevStatus = UNSET` and
`fromSolver = True`. -/
def addNextMove (st : Nat → SideStatus) (s : SolverState) (side : Option Nat)
    (newStatus : SideStatus) (priority : Nat) : SolverState :=
  match side with
  | none => s
  | some sid =>
    if st sid = .UNSET ∧ newStatus ≠ .UNSET ∧ sid ∉ s.processedSideIds then
      let m : HexGameMove := ⟨sid, newStatus, some .UNSET, priority, true⟩
      ⟨s.nextMoveList ++ [m], insert sid s.processedSideIds, s.enqLog ++ [m]⟩
    else s

/-- One iteration of `HexSolver.extendNextMoves`: an externally supplied
move is enqueued only when its side is currently UNSET, its new status is
not UNSET, and its side id is not yet processed. -/
def extendNextMove (st : Nat → SideStatus) (s : SolverState) (m : HexGameMove) : SolverState :=
  if st m.sideId = .UNSET ∧ m.newStatus ≠ .UNSET ∧ m.sideId ∉ s.processedSideIds then
    ⟨s.nextMoveList ++ [m], insert m.sideId s.processedSideIds, s.enqLog ++ [m]⟩
  else s

/-- Run an inspection pass: every proposal of the rule catalogue goes
through `addNextMove` (this is how `initialBoardInspection`,
`inspectEverything` and `inspectObviousVicinity` enqueue). -/
def runInspection (props : List MoveProposal) (st : Nat → SideStatus) (s : SolverState) :
    SolverState :=
  props.foldl (fun acc p => addNextMove st acc p.side p.newStatus p.priority) s

/-- The `while True` pop loop of `HexSolver.getNextMove`: repeatedly sort
(the sort is an arbitrary reordering function here; `solveAll` passes the
identity since it calls with `doSort=False`) and pop the front move,
discarding moves whose side is no longer UNSET, until an UNSET-targeting
move or the empty list is reached. -/
def drainMoves (sorter : List HexGameMove → List HexGameMove) (st : Nat → SideStatus) :
    Nat → List HexGameMove → Option HexGameMove × List HexGameMove
  | 0, _ => (none, [])
  | fuel + 1, l =>
    match sorter l with
    | [] => (none, [])
    | m :: rest =>
      if st m.sideId = .UNSET then (some m, rest) else drainMoves sorter st fuel rest

/-- `HexSolver.getNextMove`: drain the pending list; when it empties, run
the full-board inspection (`inspectEverything`, given as the proposal list
`rules st`) and pop the front of the refilled list without a further
status check. -/
def getNextMove (rules : (Nat → SideStatus) → List MoveProposal)
    (sorter : List HexGameMove → List HexGameMove) (st : Nat → SideStatus)
    (s : SolverState) : Option HexGameMove × SolverState :=
  match drainMoves sorter st (s.nextMoveList.length + 1) s.nextMoveList with
  | (some m, rest) => (some m, { s with nextMoveList := rest })
  | (none, _) =>
    let s1 := runInspection (rules st) st { s with nextMoveList := [] }
    match s1.nextMoveList with
    | [] => (none, s1)
    | m :: rest => (some m, { s1 with nextMoveList := rest })

/-- Number of UNSET sides of the board. -/
def unsetCount (g : SideGraph) (st : Nat → SideStatus) : Nat :=
  ((Finset.range g.numSides).filter (fun s => st s = .UNSET)).card

/-- The `while True` loop of `HexSolver.solveAll` (which calls
`getNextMove` with `doSort=False`): get the next move, apply it through
`HexGame.setSideStatus`, run the local re-inspection
(`inspectObviousVicinity`, given as the proposal list
`vicinity changedSide st`), and repeat, counting the applied moves.  The
fuel makes the recursion structural; the termination theorem shows fuel
`unsetCount + 1` always suffices. -/
def solveAllGo (g : SideGraph) (orc : Oracle)
    (rules : (Nat → SideStatus) → List MoveProposal)
    (vicinity : Nat → (Nat → SideStatus) → List MoveProposal) :
    Nat → GameState → SolverState → Nat → Option (GameState × SolverState × Nat)
  | 0, _, _, _ => none
  | fuel + 1, gs, s, count =>
    match getNextMove rules id gs.st s with
    | (none, s1) => some (gs, s1, count)
    | (some m, s1) =>
      let gs1 := setSideStatus g orc gs m
      let s2 := runInspection (vicinity m.sideId gs1.st) gs1.st s1
      solveAllGo g orc rules vicinity fuel gs1 s2 (count + 1)

/-- `HexSolver.solveAll`, run with the provably sufficient fuel. -/
def solveAll (g : SideGraph) (orc : Oracle)
    (rules : (Nat → SideStatus) → List MoveProposal)
    (vicinity : Nat → (Nat → SideStatus) → List MoveProposal)
    (gs : GameState) (s : SolverState) : Option (GameState × SolverState × Nat) :=
  solveAllGo g orc rules vicinity (unsetCount g gs.st + 1) gs s 0

/-!
## Lifetime traces of the solver queue (for the duplicate-proposal claim)

A lifetime of a `HexSolver` instance interleaves enqueue attempts
(`addNextMove` calls from any inspection, `extendNextMoves` elements),
pops by `getNextMove`, and arbitrary board-status writes (solver-applied
moves, manual toggles, undos). -/

/-- One externally observable queue-affecting event. -/
inductive SolverEvent where
  | propose (side : Option Nat) (newStatus : SideStatus) (priority : Nat)
  | extend (m : HexGameMove)
  | popFront
  | writeStatus (sid : Nat) (v : SideStatus)

/-- Effect of one event on the board statuses and the queue state. -/
def stepEvent : (Nat → SideStatus) × SolverState → SolverEvent → (Nat → SideStatus) × SolverState
  | (st, s), .propose side n p => (st, addNextMove st s side n p)
  | (st, s), .extend m => (st, extendNextMove st s m)
  | (st, s), .popFront => (st, { s with nextMoveList := s.nextMoveList.tail })
  | (st, s), .writeStatus sid v => (updFn st sid v, s)

/-- Run a lifetime of events from a fresh solver (`HexSolver.__init__`). -/
def runEvents (evs : List SolverEvent) (st0 : Nat → SideStatus) :
    (Nat → SideStatus) × SolverState :=
  evs.foldl stepEvent (st0, SolverState.init)

/-!
## Faction propagation (`HexSolver.recalculateFactions`, `inspectFactions`)

The cell-level data needed by the propagator: the flat cell list
(`game.cells`), the row array (`game.board`), the adjacent cell and the
owned side of each cell per direction.  Side statuses do not change while
the propagator runs, so they are a fixed function here.  The recursion of
`setFaction` is fuelled; each effective nested call turns an UNKNOWN cell
into a known one, so `cells.length + 1` fuel always suffices. -/

/-- The cell topology read by the faction propagator. -/
structure FactionBoard where
  cells : List Nat
  boardRows : List (List Nat)
  adjCell : Nat → HexSideDir → Option Nat
  cellSide : Nat → HexSideDir → Nat

/-- Default fuel for the faction flood of a board. -/
def factionFuel (b : FactionBoard) : Nat :=
  b.cells.length + 1

/-- The recursive `setFaction` inside `HexSolver.recalculateFactions`:
when the cell is UNKNOWN (and the new value differs), write the value and
notify every adjacent cell, propagating the same faction through a BLANK
side and the opposite faction through an ACTIVE side. -/
def setFaction (b : FactionBoard) (st : Nat → SideStatus) :
    Nat → Nat → CellFaction → (Nat → CellFaction) → (Nat → CellFaction)
  | 0, _, _, fm => fm
  | fuel + 1, c, f, fm =>
    if fm c ≠ f ∧ fm c = .UNKNOWN then
      HexSideDir.all.foldl (fun acc d =>
        match b.adjCell c d with
        | none => acc
        | some c2 =>
          if st (b.cellSide c d) = .ACTIVE then
            setFaction b st fuel c2 f.opposite
              (if st (b.cellSide c d) = .BLANK then setFaction b st fuel c2 f acc else acc)
          else
            if st (b.cellSide c d) = .BLANK then setFaction b st fuel c2 f acc else acc)
        (updFn fm c f)
    else fm

/-- The classification a boundary cell receives from one direction during
seeding, read off the current faction map: an outward side (no adjacent
cell) that is BLANK gives OUTSIDE and ACTIVE gives INSIDE; a side toward
an already-resolved cell inherits that cell's faction through a BLANK side
and the opposite faction through an ACTIVE side. -/
def seedActionAt (b : FactionBoard) (st : Nat → SideStatus) (fm : Nat → CellFaction)
    (c : Nat) (d : HexSideDir) : Option CellFaction :=
  match b.adjCell c d with
  | none =>
    if st (b.cellSide c d) = .BLANK then some .OUTSIDE
    else if st (b.cellSide c d) = .ACTIVE then some .INSIDE
    else none
  | some c2 =>
    if fm c2 ≠ .UNKNOWN then
      if st (b.cellSide c d) = .BLANK then some (fm c2)
      else if st (b.cellSide c d) = .ACTIVE then some ((fm c2).opposite)
      else none
    else none

/-- The first direction-classification (in `HexSideDir` order) that
determines a seed faction for the cell. -/
def firstSeedAction (b : FactionBoard) (st : Nat → SideStatus) (fm : Nat → CellFaction)
    (c : Nat) : Option CellFaction :=
  HexSideDir.all.findSome? (seedActionAt b st fm c)

/-- `processEdgeCell` inside `HexSolver.recalculateFactions`: skip a cell
whose faction is already known; otherwise scan the six directions and call
`setFaction` for each direction that yields a classification (after the
first effective call the cell is known, so the later calls are no-ops). -/
def processEdgeCell (b : FactionBoard) (st : Nat → SideStatus) (c : Nat)
    (fm : Nat → CellFaction) : Nat → CellFaction :=
  if fm c ≠ .UNKNOWN then fm
  else
    HexSideDir.all.foldl (fun acc d =>
      match seedActionAt b st acc c d with
      | some f => setFaction b st (factionFuel b) c f acc
      | none => acc) fm

/-- `HexSolver.resetFactions`: set the faction of every cell of the board
back to UNKNOWN. -/
def resetFactions (b : FactionBoard) (fm : Nat → CellFaction) : Nat → CellFaction :=
  fun c => if c ∈ b.cells then .UNKNOWN else fm c

/-- The row scan of `HexSolver.recalculateFactions`: the first and the
last row process every cell, every other row processes only its first and
its last cell. -/
def seedRows (b : FactionBoard) (st : Nat → SideStatus) (fm : Nat → CellFaction) :
    Nat → CellFaction :=
  (List.range b.boardRows.length).foldl (fun acc r =>
    let rowArr := b.boardRows.getD r []
    if r = 0 ∨ r = b.boardRows.length - 1 then
      rowArr.foldl (fun a c => processEdgeCell b st c a) acc
    else
      match rowArr with
      | [] => acc
      | c :: _ =>
        let a1 := processEdgeCell b st c acc
        match rowArr.getLast? with
        | some cl => processEdgeCell b st cl a1
        | none => a1) fm

/-- `HexSolver.recalculateFactions`: reset all factions, then seed from
the boundary rows. -/
def recalculateFactions (b : FactionBoard) (st : Nat → SideStatus)
    (fm : Nat → CellFaction) : Nat → CellFaction :=
  seedRows b st (resetFactions b fm)

/-- The faction on the far side of a cell's side in a direction: the
adjacent cell's faction, or OUTSIDE when there is no adjacent cell
(`sideFaction` in `HexSolver.inspectFactions`). -/
def factionFar (b : FactionBoard) (fm : Nat → CellFaction) (c : Nat) (d : HexSideDir) :
    CellFaction :=
  match b.adjCell c d with
  | none => CellFaction.OUTSIDE
  | some c2 => fm c2

/-- The proposal scan of `HexSolver.inspectFactions` given a faction map:
for every cell with known faction and every UNSET side of it, compare the
far side's faction (the adjacent cell's, or OUTSIDE when there is none):
different and known proposes ACTIVE, equal proposes BLANK.  Each proposal
is then handed to `addNextMove`. -/
def factionProposals (b : FactionBoard) (st : Nat → SideStatus)
    (fm : Nat → CellFaction) : List (Nat × SideStatus) :=
  b.cells.flatMap (fun c =>
    if fm c = .UNKNOWN then []
    else HexSideDir.all.filterMap (fun d =>
      if st (b.cellSide c d) = .UNSET then
        if factionFar b fm c d ≠ .UNKNOWN ∧ factionFar b fm c d ≠ fm c then
          some (b.cellSide c d, SideStatus.ACTIVE)
        else if factionFar b fm c d ≠ .UNKNOWN ∧ factionFar b fm c d = fm c then
          some (b.cellSide c d, SideStatus.BLANK)
        else none
      else none))

/-- `HexSolver.inspectFactions`: recalculate all factions, then emit the
faction-based proposals. -/
def inspectFactions (b : FactionBoard) (st : Nat → SideStatus)
    (fm : Nat → CellFaction) : List (Nat × SideStatus) :=
  factionProposals b st (recalculateFactions b st fm)

/-- Justification of a faction value by a propagation chain from the seed
write `(c0, f0)`: the seed itself is justified, and a justified value
propagates to an adjacent cell unchanged through a BLANK side and
inverted through an ACTIVE side. -/
inductive Justified (b : FactionBoard) (st : Nat → SideStatus) (c0 : Nat) (f0 : CellFaction) :
    Nat → CellFaction → Prop where
  | seed : Justified b st c0 f0 c0 f0
  | blankStep {c f d c2} : Justified b st c0 f0 c f → b.adjCell c d = some c2 →
      st (b.cellSide c d) = .BLANK → Justified b st c0 f0 c2 f
  | activeStep {c f d c2} : Justified b st c0 f0 c f → b.adjCell c d = some c2 →
      st (b.cellSide c d) = .ACTIVE → Justified b st c0 f0 c2 f.opposite

/-!
# Theorems
-/

/-!
## C5: input validation
-/

/-- C5 (counterexample): the claim says construction fails when the cell
data contains a character that is neither a digit 0-6 nor the placeholder;
but for every character classifier that, like Python's `str.isnumeric`,
accepts the digit '7', `validateInputData` accepts the string of seven
sevens for a 3-row board (correct length 7), because the code only tests
`c.isnumeric()`. -/
theorem validateInputData_accepts_seven :
    (∀ isnumeric : Char → Bool, isnumeric '7' = true →
      exceptOk (validateInputData isnumeric 3
        (some ['7', '7', '7', '7', '7', '7', '7'])) = true) ∧
      ¬ ('7' = '.' ∨ '7' ∈ ['0', '1', '2', '3', '4', '5', '6']) := by
  constructor
  · intro isnumeric h7
    unfold validateInputData
    rw [if_neg (by decide)]
    dsimp only
    rw [if_neg (by decide)]
    rw [if_neg (by simp [h7])]
    rfl
  · decide

/-- C5 (amended): for any character classifier standing in for Python's
`str.isnumeric`, `validateInputData` succeeds exactly when the row count
is at least 3 and odd and the cell data, when present, has length equal to
the computed total cell count and contains only the placeholder and
characters the classifier accepts (so every Unicode numeric character
passes, the digits 7-9 included, although no hexagon can require more
than 6 sides). -/
theorem validateInputData_ok_iff (isnumeric : Char → Bool) (rows : Nat)
    (data : Option (List Char)) :
    exceptOk (validateInputData isnumeric rows data) = true ↔
      (3 ≤ rows ∧ rows % 2 = 1 ∧
        ∀ s, data = some s →
          (s.length = totalCells rows ∧ ∀ c ∈ s, c = '.' ∨ isnumeric c = true)) := by
  unfold validateInputData
  by_cases h1 : rows < 3 ∨ rows % 2 = 0
  · rw [if_pos h1]
    simp only [exceptOk, Bool.false_eq_true, false_iff]
    rintro ⟨ha, hb, -⟩
    omega
  · rw [if_neg h1]
    push_neg at h1
    obtain ⟨h3, h2⟩ := h1
    have h2' : rows % 2 = 1 := (Nat.mod_two_eq_zero_or_one rows).resolve_left h2
    have h3' : 3 ≤ rows := by omega
    cases data with
    | none => simp [exceptOk, h3', h2']
    | some s =>
      dsimp only
      by_cases hl : totalCells rows ≠ s.length
      · rw [if_pos hl]
        simp only [exceptOk, Bool.false_eq_true, false_iff]
        rintro ⟨-, -, hs⟩
        exact hl ((hs s rfl).1.symm)
      · rw [if_neg hl]
        push_neg at hl
        by_cases hc : s.any (fun c => c ≠ '.' ∧ ¬ isnumeric c)
        · rw [if_pos hc]
          simp only [exceptOk, Bool.false_eq_true, false_iff]
          rintro ⟨-, -, hs⟩
          simp only [List.any_eq_true, decide_eq_true_eq] at hc
          obtain ⟨c, hcs, hc1, hc2⟩ := hc
          rcases (hs s rfl).2 c hcs with h | h
          · exact hc1 h
          · exact hc2 h
        · rw [if_neg hc]
          simp only [exceptOk, true_iff]
          refine ⟨h3', h2', ?_⟩
          rintro s' hs'
          injection hs' with hs'
          subst hs'
          refine ⟨hl.symm, ?_⟩
          intro c hcs
          by_contra hcon
          push_neg at hcon
          exact hc (by
            simp only [List.any_eq_true, decide_eq_true_eq]
            exact ⟨c, hcs, hcon.1, hcon.2⟩)

/-- C5 (witness): the amended equivalence instantiated at the ASCII-digit
classifier and a 3-row board with the valid cell data of seven dots. -/
theorem validateInputData_ok_iff_witness :
    exceptOk (validateInputData Char.isDigit 3
      (some ['.', '.', '.', '.', '.', '.', '.'])) = true :=
  (validateInputData_ok_iff Char.isDigit 3
      (some ['.', '.', '.', '.', '.', '.', '.'])).mpr
    (by
      refine ⟨by decide, by decide, ?_⟩
      rintro s hs
      injection hs with hs
      subst hs
      exact ⟨by decide, by decide⟩)

/-!
## C2: the guards of `setSideStatus`
-/

/-- C2: `setSideStatus` leaves the state (status, colors, history)
completely unchanged when the move's new status equals the side's current
status, and when the move records a previous status differing from the
side's current status; in every other case it appends exactly that move to
the history and rewrites exactly that side's status to the new status. -/
theorem setSideStatus_guard_spec (g : SideGraph) (orc : Oracle) (gs : GameState)
    (m : HexGameMove) :
    (gs.st m.sideId = m.newStatus → setSideStatus g orc gs m = gs)
    ∧ (∀ p, m.prevStatus = some p → p ≠ gs.st m.sideId → setSideStatus g orc gs m = gs)
    ∧ (gs.st m.sideId ≠ m.newStatus →
        (m.prevStatus = none ∨ m.prevStatus = some (gs.st m.sideId)) →
        (setSideStatus g orc gs m).history = gs.history ++ [m]
        ∧ (setSideStatus g orc gs m).st = updFn gs.st m.sideId m.newStatus) := by
  refine ⟨?_, ?_, ?_⟩
  · intro h
    unfold setSideStatus
    simp [h]
  · intro p hp hne
    unfold setSideStatus
    by_cases hc : gs.st m.sideId = m.newStatus
    · simp [hc]
    · simp [hc, hp, hne]
  · intro hne hprev
    have hguard : (match m.prevStatus with
        | some p => decide (p ≠ gs.st m.sideId)
        | none => false : Bool) = false := by
      rcases hprev with h | h <;> simp [h]
    rcases hm : m.newStatus with _ | _ | _ <;>
      · unfold setSideStatus
        rw [hm] at hne ⊢
        rw [if_neg hne, hguard]
        simp [setSideActive, setSideBlank]

/-- C2 (witness): applying a fresh solver move (ACTIVE over UNSET with
recorded previous status UNSET) to a one-side board appends the move and
activates the side. -/
theorem setSideStatus_guard_spec_witness :
    (setSideStatus ⟨1, 2, fun _ => (0, 1), fun _ => [0]⟩ ⟨fun _ => 0, fun _ => 0⟩
        ⟨fun _ => .UNSET, fun _ => 0, []⟩
        ⟨0, .ACTIVE, some .UNSET, 1, true⟩).history = [] ++ [⟨0, .ACTIVE, some .UNSET, 1, true⟩]
    ∧ (setSideStatus ⟨1, 2, fun _ => (0, 1), fun _ => [0]⟩ ⟨fun _ => 0, fun _ => 0⟩
        ⟨fun _ => .UNSET, fun _ => 0, []⟩
        ⟨0, .ACTIVE, some .UNSET, 1, true⟩).st =
      updFn (fun _ => .UNSET) 0 .ACTIVE :=
  (setSideStatus_guard_spec ⟨1, 2, fun _ => (0, 1), fun _ => [0]⟩ ⟨fun _ => 0, fun _ => 0⟩
    ⟨fun _ => .UNSET, fun _ => 0, []⟩ ⟨0, .ACTIVE, some .UNSET, 1, true⟩).2.2
    (by decide) (Or.inr rfl)

/-!
## C3: the manual toggle
-/

/-- C3 (code bug): every manual toggle raises.  `toggleSideStatus` builds
its move as `HexGameMove(side.id, nextStatus, None, currentStatus)`, which
passes `prevStatus = None`, and `HexGameMove.__init__` asserts
`prevStatus is not None`; so the toggle fails before changing anything and
the claimed UNSET-ACTIVE-BLANK-UNSET round trip never happens.  (The
intended cycle is the file's `toggleCycle`; three applications of it do
return any status to itself, but the code never gets there.) -/
theorem toggleSideStatus_always_raises (g : SideGraph) (orc : Oracle) (gs : GameState)
    (sid : Nat) :
    toggleSideStatus g orc gs sid = none ∧
      ∀ s : SideStatus, toggleCycle (toggleCycle (toggleCycle s)) = s := by
  constructor
  · unfold toggleSideStatus HexGameMove.make
    cases gs.st sid <;> rfl
  · intro s
    cases s <;> rfl

/-!
## C4: undo
-/

/-- C4 (code bug): whenever the move history is non-empty, `undoOne` pops
the last entry, reverses it, and calls
`setSideStatus(reverseMove, appendToHistory=False)`; `HexGame.setSideStatus`
accepts no `appendToHistory` parameter, so the call raises `TypeError` and
no undo is ever applied. -/
theorem undoOne_raises_on_nonempty_history (gs : GameState) (l : List HexGameMove)
    (h : gs.history ≠ []) :
    undoOne gs l = none := by
  unfold undoOne
  rw [if_pos]
  exact List.length_pos.mpr h

/-- C4 (witness): undoing after one applied move raises. -/
theorem undoOne_raises_on_nonempty_history_witness :
    undoOne ⟨fun _ => .ACTIVE, fun _ => 0, [⟨0, .ACTIVE, some .UNSET, 1, true⟩]⟩ [] = none :=
  undoOne_raises_on_nonempty_history
    ⟨fun _ => .ACTIVE, fun _ => 0, [⟨0, .ACTIVE, some .UNSET, 1, true⟩]⟩ [] (by simp)

/-!
## Traversal lemmas (shared by the link claims)
-/

/-- A fold with a pointwise-growing step grows the accumulator. -/
theorem foldl_mono_subset {α : Type} (f : Finset Nat → α → Finset Nat)
    (h : ∀ a t, a ⊆ f a t) (l : List α) : ∀ acc, acc ⊆ l.foldl f acc := by
  induction l with
  | nil => intro acc; exact subset_rfl
  | cons t l ih => intro acc; exact (h acc t).trans (ih (f acc t))

/-- The visited set grows along `getLinkSet`. -/
theorem getLinkSet_subset (g : SideGraph) (st : Nat → SideStatus) (F : Nat → Bool)
    (fuel : Nat) : ∀ s acc, acc ⊆ getLinkSet g st F fuel s acc := by
  induction fuel with
  | zero => intro s acc; exact subset_rfl
  | succ fuel ih =>
    intro s acc
    unfold getLinkSet
    split
    · exact subset_rfl
    split
    · exact subset_rfl
    · exact (Finset.subset_insert _ _).trans (foldl_mono_subset _ (fun a t => ih t a) _ _)

/-- Once the short-circuiting fold has found the target it no longer
changes its state. -/
theorem foldl_find_fix (g : SideGraph) (st : Nat → SideStatus) (fuel target : Nat)
    (l : List Nat) (p : Bool × Finset Nat) (h : p.1 = true) :
    l.foldl (fun p t => if p.1 then p else findSideInLink g st fuel t target p.2) p = p := by
  induction l with
  | nil => rfl
  | cons t l ih => simpa [h] using ih

/-- The fold step of the matched pair of traversals: folding the
short-circuiting search and folding the collecting flood over the same
sides from matching states yields matching states (the search succeeds
exactly when the collector picks up the target). -/
theorem findFold_eq (g : SideGraph) (st : Nat → SideStatus) (target fuel : Nat)
    (ih : ∀ s acc, target ∉ acc →
      ((findSideInLink g st fuel s target acc).1 = true
          ∧ target ∈ getLinkSet g st (fun _ => true) fuel s acc)
      ∨ (findSideInLink g st fuel s target acc
            = (false, getLinkSet g st (fun _ => true) fuel s acc)
          ∧ target ∉ getLinkSet g st (fun _ => true) fuel s acc)) :
    ∀ (l : List Nat) (acc : Finset Nat), target ∉ acc →
      ((l.foldl (fun p t => if p.1 then p else findSideInLink g st fuel t target p.2)
          (false, acc)).1 = true
        ∧ target ∈ l.foldl (fun a t => getLinkSet g st (fun _ => true) fuel t a) acc)
      ∨ (l.foldl (fun p t => if p.1 then p else findSideInLink g st fuel t target p.2)
            (false, acc)
          = (false, l.foldl (fun a t => getLinkSet g st (fun _ => true) fuel t a) acc)
        ∧ target ∉ l.foldl (fun a t => getLinkSet g st (fun _ => true) fuel t a) acc) := by
  intro l
  induction l with
  | nil => intro acc h; right; exact ⟨rfl, h⟩
  | cons t l ihl =>
    intro acc h
    rcases ih t acc h with ⟨hf, hm⟩ | ⟨hf, hm⟩
    · left
      constructor
      · have h1 : (List.foldl (fun p t => if p.1 then p else findSideInLink g st fuel t target p.2)
            (findSideInLink g st fuel t target acc) l) = findSideInLink g st fuel t target acc := by
          have := foldl_find_fix g st fuel target l (findSideInLink g st fuel t target acc) hf
          exact this
        simp only [List.foldl_cons]
        rw [show (if (false, acc).1 = true then (false, acc)
            else findSideInLink g st fuel t target (false, acc).2)
            = findSideInLink g st fuel t target acc from by simp]
        rw [h1, hf]
      · simp only [List.foldl_cons]
        exact Finset.mem_of_subset
          (foldl_mono_subset _ (fun a u => getLinkSet_subset g st _ fuel u a) l _) hm
    · have hstep : (if (false, acc).1 = true then (false, acc)
          else findSideInLink g st fuel t target (false, acc).2)
          = (false, getLinkSet g st (fun _ => true) fuel t acc) := by simp [hf]
      simp only [List.foldl_cons]
      rw [hstep]
      exact ihl (getLinkSet g st (fun _ => true) fuel t acc) hm

/-- The short-circuiting traversal of `isSameLink` finds the target
exactly when the materializing traversal of `fromSide` collects it, and
when it fails the two traversals have visited the same set. -/
theorem findSideInLink_eq_mem (g : SideGraph) (st : Nat → SideStatus) (target : Nat) :
    ∀ (fuel : Nat) (s : Nat) (acc : Finset Nat), target ∉ acc →
      ((findSideInLink g st fuel s target acc).1 = true
          ∧ target ∈ getLinkSet g st (fun _ => true) fuel s acc)
      ∨ (findSideInLink g st fuel s target acc
            = (false, getLinkSet g st (fun _ => true) fuel s acc)
          ∧ target ∉ getLinkSet g st (fun _ => true) fuel s acc) := by
  intro fuel
  induction fuel with
  | zero => intro s acc h; right; exact ⟨rfl, h⟩
  | succ fuel ih =>
    intro s acc hT
    by_cases hst : s = target
    · left
      subst hst
      refine ⟨by unfold findSideInLink; simp, ?_⟩
      unfold getLinkSet
      rw [if_neg hT]
      rw [if_neg (by simp)]
      exact Finset.mem_of_subset
        (foldl_mono_subset _ (fun a u => getLinkSet_subset g st _ fuel u a) _ _)
        (Finset.mem_insert_self s acc)
    · by_cases hsa : s ∈ acc
      · right
        constructor
        · unfold findSideInLink getLinkSet
          rw [if_neg hst, if_pos hsa, if_pos hsa]
        · unfold getLinkSet
          rw [if_pos hsa]
          exact hT
      · have hTacc : target ∉ insert s acc := by
          simp only [Finset.mem_insert]
          rintro (h | h)
          · exact hst h.symm
          · exact hT h
        unfold findSideInLink getLinkSet
        rw [if_neg hst, if_neg hsa, if_neg hsa, if_neg (by simp)]
        exact findFold_eq g st target fuel ih _ _ hTacc

/-!
## C7: `isSameLink` against the materializing traversal
-/

/-- C7: for all sides `a` and `b`, the short-circuiting `isSameLink a b`
returns true exactly when `a` and `b` are both non-BLANK, have equal
status, and `b` belongs to the set collected by the full materializing
link traversal of `fromSide` started at `a`; the two traversals agree on
link membership. -/
theorem isSameLink_iff_traversal_mem (g : SideGraph) (st : Nat → SideStatus) (a b : Nat) :
    isSameLink g st a b = true ↔
      (st a ≠ .BLANK ∧ st b ≠ .BLANK ∧ st a = st b ∧ b ∈ linkTraversal g st a) := by
  unfold isSameLink linkTraversal
  by_cases h1 : st a = .BLANK ∨ st b = .BLANK
  · rw [if_pos h1]
    simp only [Bool.false_eq_true, false_iff]
    rintro ⟨ha, hb, -⟩
    rcases h1 with h | h
    · exact ha h
    · exact hb h
  · rw [if_neg h1]
    push_neg at h1
    by_cases h2 : st a = st b
    · rw [if_neg (fun h => h h2)]
      rcases findSideInLink_eq_mem g st b (sideFuel g) a ∅ (Finset.not_mem_empty b) with
        ⟨hf, hm⟩ | ⟨hf, hm⟩
      · simp [hf, hm, h1.1, h1.2, h2]
      · rw [hf]
        simp only [Bool.false_eq_true, false_iff]
        rintro ⟨-, -, -, hmem⟩
        exact hm hmem
    · rw [if_pos h2]
      simp only [Bool.false_eq_true, false_iff]
      rintro ⟨-, -, hab, -⟩
      exact h2 hab

/-!
## C6: validity of constructed side links
-/

/-- The conditions of the link-shape claim for a listed set of member
sides: non-empty with all members of one common non-BLANK status, no
vertex hit by three or more members, exactly two vertices hit by exactly
one member (the endpoints), and exactly `n - 1` vertices hit by exactly
two members. -/
def linkConditions (g : SideGraph) (st : Nat → SideStatus) (l : List Nat) : Prop :=
  (l ≠ [] ∧ ∃ c, c ≠ SideStatus.BLANK ∧ ∀ s ∈ l, st s = c)
  ∧ (∀ v, vertexConnCount g l v ≤ 2)
  ∧ ((touchedVerts g l).filter (fun v => vertexConnCount g l v = 1)).length = 2
  ∧ ((touchedVerts g l).filter (fun v => vertexConnCount g l v = 2)).length = l.length - 1

/-- A vertex not touched by any member side has connection count zero. -/
theorem vertexConnCount_eq_zero (g : SideGraph) (l : List Nat) (v : Nat)
    (h : v ∉ touchedVerts g l) : vertexConnCount g l v = 0 := by
  induction l with
  | nil => rfl
  | cons s l ih =>
    unfold touchedVerts at h
    rw [List.mem_dedup] at h
    simp only [List.flatMap_cons, List.mem_append, List.mem_cons, List.not_mem_nil,
      or_false, not_or] at h
    obtain ⟨⟨h1, h2⟩, h3⟩ := h
    have hl : v ∉ touchedVerts g l := by
      unfold touchedVerts
      rw [List.mem_dedup]
      exact h3
    unfold vertexConnCount
    simp only [List.map_cons, List.sum_cons]
    rw [if_neg (fun he => h1 he.symm), if_neg (fun he => h2 he.symm)]
    have := ih hl
    unfold vertexConnCount at this
    omega

/-- `SideLink._validate` succeeds exactly on lists satisfying the
link-shape conditions. -/
theorem validateLink_isSome_iff (g : SideGraph) (st : Nat → SideStatus) (l : List Nat) :
    (validateLink g st l).isSome = true ↔ linkConditions g st l := by
  cases l with
  | nil =>
    simp only [validateLink, Option.isSome_none, Bool.false_eq_true, false_iff]
    rintro ⟨⟨h, -⟩, -⟩
    exact h rfl
  | cons s0 rest =>
    unfold validateLink
    dsimp only
    by_cases h1 : st s0 = SideStatus.BLANK
    · rw [if_pos h1]
      simp only [Option.isSome_none, Bool.false_eq_true, false_iff]
      rintro ⟨⟨-, c, hc, hall⟩, -⟩
      exact hc ((hall s0 (List.mem_cons_self s0 rest)) ▸ h1)
    · rw [if_neg h1]
      by_cases h2 : ((s0 :: rest).all fun s => st s = st s0 : Bool) = true
      · rw [if_neg (by rw [h2]; exact fun h => h rfl)]
        by_cases h3 : ((touchedVerts g (s0 :: rest)).all
            fun v => vertexConnCount g (s0 :: rest) v ≤ 2 : Bool) = true
        · rw [if_neg (by rw [h3]; exact fun h => h rfl)]
          by_cases h4 : ((touchedVerts g (s0 :: rest)).filter
              (fun v => vertexConnCount g (s0 :: rest) v = 1)).length = 2
          · rw [if_neg (fun h => h h4)]
            by_cases h5 : ((touchedVerts g (s0 :: rest)).filter
                (fun v => vertexConnCount g (s0 :: rest) v = 2)).length
                = (s0 :: rest).length - 1
            · rw [if_neg (fun h => h h5)]
              simp only [Option.isSome_some, true_iff]
              rw [List.all_eq_true] at h2 h3
              refine ⟨⟨List.cons_ne_nil s0 rest, st s0, h1,
                fun s hs => by simpa using h2 s hs⟩, ?_, h4, h5⟩
              intro v
              by_cases hv : v ∈ touchedVerts g (s0 :: rest)
              · simpa using h3 v hv
              · rw [vertexConnCount_eq_zero g _ v hv]
                omega
            · rw [if_pos h5]
              simp only [Option.isSome_none, Bool.false_eq_true, false_iff]
              rintro ⟨-, -, -, hlv⟩
              exact h5 hlv
          · rw [if_pos h4]
            simp only [Option.isSome_none, Bool.false_eq_true, false_iff]
            rintro ⟨-, -, hep, -⟩
            exact h4 hep
        · rw [if_pos h3]
          simp only [Option.isSome_none, Bool.false_eq_true, false_iff]
          rintro ⟨-, hle, -⟩
          refine h3 ?_
          rw [List.all_eq_true]
          intro v hv
          simpa using hle v
      · rw [if_pos h2]
        simp only [Option.isSome_none, Bool.false_eq_true, false_iff]
        rintro ⟨⟨-, c, hc, hall⟩, -⟩
        refine h2 ?_
        rw [List.all_eq_true]
        intro s hs
        have hw := hall s hs
        have h0 := hall s0 (List.mem_cons_self s0 rest)
        simp [hw, h0]

/-- C6: a link is constructed (by `fromList`, and by `fromSide` from any
seed and filter) exactly from side sets of valid link shape: all members
share one non-BLANK status, exactly two vertices touch exactly one member
(the endpoints), exactly `n - 1` vertices touch exactly two members, and
no vertex touches three or more; any candidate set violating this yields
no link. -/
theorem sideLink_valid_iff (g : SideGraph) (st : Nat → SideStatus) :
    (∀ sides : Finset Nat,
        (SideLink.fromList g st sides).isSome = true ↔ linkConditions g st (sideList g sides))
    ∧ (∀ sides l, SideLink.fromList g st sides = some l → l.sides = sides)
    ∧ (∀ F s l, SideLink.fromSide g st F s = some l → linkConditions g st (sideList g l.sides)) := by
  refine ⟨?_, ?_, ?_⟩
  · intro sides
    rw [← validateLink_isSome_iff]
    unfold SideLink.fromList
    cases validateLink g st (sideList g sides) with
    | none => simp
    | some triple => simp
  · intro sides l
    unfold SideLink.fromList
    cases validateLink g st (sideList g sides) with
    | none => simp
    | some triple =>
      intro h
      obtain ⟨lv, ep, el⟩ := triple
      cases h
      rfl
  · intro F s l
    unfold SideLink.fromSide
    by_cases hb : st s = SideStatus.BLANK
    · rw [if_pos hb]
      simp
    · rw [if_neg hb]
      by_cases hf : seedRejected F s = true
      · rw [if_pos hf]
        simp
      · rw [if_neg hf]
        cases hv : validateLink g st
            (sideList g (getLinkSet g st (optFilter F) (sideFuel g) s ∅)) with
        | none => simp
        | some triple =>
          obtain ⟨lv, ep, el⟩ := triple
          dsimp only
          intro h
          cases h
          rw [← validateLink_isSome_iff, hv]
          rfl

/-- A one-side board with two vertices, used as a concrete witness
instance. -/
def oneSideGraph : SideGraph :=
  ⟨1, 2, fun _ => (0, 1), fun v => if v = 0 ∨ v = 1 then [0] else []⟩

/-- The all-UNSET status assignment. -/
def allUnset : Nat → SideStatus :=
  fun _ => .UNSET

/-- C6 (witness): the single unset side of the one-side board forms a link
and therefore has valid link shape. -/
theorem sideLink_valid_iff_witness :
    linkConditions oneSideGraph allUnset (sideList oneSideGraph {0}) :=
  ((sideLink_valid_iff oneSideGraph allUnset).1 {0}).mp (by decide)

/-!
## Reachability characterization of the link flood (for the partition claim)
-/

/-- One step of the link flood restricted by the filter `F`: both sides
pass the filter and the second is linked to the first. -/
def LinkStep (g : SideGraph) (st : Nat → SideStatus) (F : Nat → Bool) (u v : Nat) : Prop :=
  F u = true ∧ F v = true ∧ v ∈ g.getAllLinkedSides st u

/-- Reachability along `LinkStep`. -/
def LinkReach (g : SideGraph) (st : Nat → SideStatus) (F : Nat → Bool) : Nat → Nat → Prop :=
  Relation.ReflTransGen (LinkStep g st F)

/-- A linked side has the same status (the traversals run `isLinkedTo`
with `ignoreStatus=False`). -/
theorem status_of_mem_getAllLinkedSides {g : SideGraph} {st : Nat → SideStatus} {u t : Nat}
    (h : t ∈ g.getAllLinkedSides st u) : st t = st u := by
  unfold SideGraph.getAllLinkedSides at h
  rw [List.mem_filter] at h
  have h2 := h.2
  unfold SideGraph.isLinkedTo at h2
  split_ifs at h2 with c1 c2
  rcases c2 with c | c
  · exact absurd c (by simp)
  · exact c.symm

/-- The seed belongs to its own flood when it passes the filter and there
is fuel. -/
theorem getLinkSet_mem_self (g : SideGraph) (st : Nat → SideStatus) (F : Nat → Bool)
    (fuel : Nat) (s : Nat) (acc : Finset Nat) (hF : F s = true) (hfuel : 0 < fuel) :
    s ∈ getLinkSet g st F fuel s acc := by
  cases fuel with
  | zero => omega
  | succ fuel =>
    unfold getLinkSet
    by_cases h : s ∈ acc
    · rw [if_pos h]
      exact h
    · rw [if_neg h, if_neg (by simp [hF])]
      exact Finset.mem_of_subset
        (foldl_mono_subset _ (fun a u => getLinkSet_subset g st F fuel u a) _ _)
        (Finset.mem_insert_self s acc)

/-- The flood stays inside the board's side ids when the filter does. -/
theorem getLinkSet_range (g : SideGraph) (st : Nat → SideStatus) (F : Nat → Bool)
    (HF : ∀ x, F x = true → x < g.numSides) (fuel : Nat) :
    ∀ s acc, acc ⊆ Finset.range g.numSides →
      getLinkSet g st F fuel s acc ⊆ Finset.range g.numSides := by
  induction fuel with
  | zero => intro s acc h; exact h
  | succ fuel ih =>
    intro s acc hacc
    unfold getLinkSet
    split
    · exact hacc
    split
    · exact hacc
    · rename_i hs1 hs2
      rw [not_not] at hs2
      have hbase : insert s acc ⊆ Finset.range g.numSides :=
        Finset.insert_subset (Finset.mem_range.mpr (HF s hs2)) hacc
      have hfold : ∀ (l : List Nat) (acc0 : Finset Nat), acc0 ⊆ Finset.range g.numSides →
          l.foldl (fun a t => getLinkSet g st F fuel t a) acc0 ⊆ Finset.range g.numSides := by
        intro l
        induction l with
        | nil => intro acc0 h0; exact h0
        | cons t l ihl => intro acc0 h0; exact ihl _ (ih t acc0 h0)
      exact hfold _ _ hbase

/-- Extending a reachability chain backward through one linked step. -/
theorem linkReach_extend (g : SideGraph) (st : Nat → SideStatus) (F : Nat → Bool)
    {s t x : Nat} (hs : F s = true) (ht : t ∈ g.getAllLinkedSides st s)
    (hr : LinkReach g st F t x) (hx : F x = true) : LinkReach g st F s x := by
  rcases Relation.ReflTransGen.cases_head hr with h | ⟨u, hstep, hrest⟩
  · subst h
    exact Relation.ReflTransGen.single ⟨hs, hx, ht⟩
  · exact Relation.ReflTransGen.head ⟨hs, hstep.1, ht⟩ (Relation.ReflTransGen.head hstep hrest)

/-- Soundness of the flood: everything collected beyond the initial
visited set is reachable from the seed and passes the filter. -/
theorem getLinkSet_sound (g : SideGraph) (st : Nat → SideStatus) (F : Nat → Bool) :
    ∀ (fuel : Nat) (s : Nat) (acc : Finset Nat) (x : Nat), x ∈ getLinkSet g st F fuel s acc →
      x ∈ acc ∨ (LinkReach g st F s x ∧ F x = true) := by
  intro fuel
  induction fuel with
  | zero => intro s acc x hx; left; exact hx
  | succ fuel ih =>
    intro s acc x hx
    unfold getLinkSet at hx
    by_cases hs1 : s ∈ acc
    · rw [if_pos hs1] at hx; left; exact hx
    by_cases hs2 : F s = true
    case neg =>
      rw [if_neg hs1, if_pos (by simpa using hs2)] at hx
      left; exact hx
    case pos =>
      rw [if_neg hs1, if_neg (by simp [hs2])] at hx
      have hfold : ∀ (l : List Nat), (∀ t ∈ l, t ∈ g.getAllLinkedSides st s) →
          ∀ (acc0 : Finset Nat),
            (∀ y ∈ acc0, y ∈ acc ∨ (LinkReach g st F s y ∧ F y = true)) →
            ∀ y ∈ l.foldl (fun a t => getLinkSet g st F fuel t a) acc0,
              y ∈ acc ∨ (LinkReach g st F s y ∧ F y = true) := by
        intro l
        induction l with
        | nil => intro _ acc0 hpre y hy; exact hpre y hy
        | cons t l ihl =>
          intro hl acc0 hpre y hy
          simp only [List.foldl_cons] at hy
          refine ihl (fun u hu => hl u (List.mem_cons_of_mem t hu)) _ ?_ y hy
          intro z hz
          rcases ih t acc0 z hz with hz0 | ⟨hr, hFz⟩
          · exact hpre z hz0
          · right
            exact ⟨linkReach_extend g st F hs2 (hl t (List.mem_cons_self t l)) hr hFz, hFz⟩
      refine hfold _ (fun t ht => ht) _ ?_ x hx
      intro y hy
      rcases Finset.mem_insert.mp hy with rfl | hy0
      · right; exact ⟨Relation.ReflTransGen.refl, hs2⟩
      · left; exact hy0

/-- Closedness of the fully fuelled flood: every collected side beyond the
initial visited set has all of its filter-passing linked sides collected
as well. -/
theorem getLinkSet_closed (g : SideGraph) (st : Nat → SideStatus) (F : Nat → Bool)
    (HF : ∀ x, F x = true → x < g.numSides) :
    ∀ (fuel : Nat) (s : Nat) (acc : Finset Nat), acc ⊆ Finset.range g.numSides →
      (Finset.range g.numSides \ acc).card < fuel →
      ∀ x ∈ getLinkSet g st F fuel s acc,
        x ∈ acc ∨ ∀ t ∈ g.getAllLinkedSides st x, F t = true →
          t ∈ getLinkSet g st F fuel s acc := by
  intro fuel
  induction fuel with
  | zero => intro s acc hacc hcard; omega
  | succ fuel ih =>
    intro s acc hacc hcard
    by_cases hs1 : s ∈ acc
    · unfold getLinkSet
      rw [if_pos hs1]
      intro x hx
      left
      exact hx
    by_cases hs2 : F s = true
    case neg =>
      unfold getLinkSet
      rw [if_neg hs1, if_pos (by simpa using hs2)]
      intro x hx
      left
      exact hx
    case pos =>
      have hsuniv : s ∈ Finset.range g.numSides := Finset.mem_range.mpr (HF s hs2)
      have hsdiff : s ∈ Finset.range g.numSides \ acc := Finset.mem_sdiff.mpr ⟨hsuniv, hs1⟩
      have hfuelpos : 0 < fuel := by
        have h1 : 0 < (Finset.range g.numSides \ acc).card := Finset.card_pos.mpr ⟨s, hsdiff⟩
        omega
      have hcard2 : (Finset.range g.numSides \ insert s acc).card < fuel := by
        have heq : Finset.range g.numSides \ insert s acc
            = (Finset.range g.numSides \ acc).erase s := by
          ext y
          simp only [Finset.mem_sdiff, Finset.mem_erase, Finset.mem_insert, not_or]
          tauto
        rw [heq, Finset.card_erase_of_mem hsdiff]
        omega
      unfold getLinkSet
      rw [if_neg hs1, if_neg (by simp [hs2])]
      have cover : ∀ (l : List Nat) (acc0 : Finset Nat), ∀ t ∈ l, F t = true →
          t ∈ l.foldl (fun a u => getLinkSet g st F fuel u a) acc0 := by
        intro l
        induction l with
        | nil => intro acc0 t ht; exact absurd ht (List.not_mem_nil t)
        | cons u l ihl =>
          intro acc0 t ht hFt
          rcases List.mem_cons.mp ht with rfl | ht2
          · have h1 : t ∈ getLinkSet g st F fuel t acc0 :=
              getLinkSet_mem_self g st F fuel t acc0 hFt hfuelpos
            simp only [List.foldl_cons]
            exact Finset.mem_of_subset
              (foldl_mono_subset _ (fun a u2 => getLinkSet_subset g st F fuel u2 a) l _) h1
          · simp only [List.foldl_cons]
            exact ihl _ t ht2 hFt
      have foldCl : ∀ (l : List Nat) (acc0 : Finset Nat), acc0 ⊆ Finset.range g.numSides →
          (Finset.range g.numSides \ acc0).card < fuel →
          ∀ x ∈ l.foldl (fun a u => getLinkSet g st F fuel u a) acc0,
            x ∈ acc0 ∨ ∀ t ∈ g.getAllLinkedSides st x, F t = true →
              t ∈ l.foldl (fun a u => getLinkSet g st F fuel u a) acc0 := by
        intro l
        induction l with
        | nil =>
          intro acc0 h1 h2 x hx
          left
          exact hx
        | cons u l ihl =>
          intro acc0 h1 h2 x hx
          simp only [List.foldl_cons] at hx ⊢
          have ha1univ : getLinkSet g st F fuel u acc0 ⊆ Finset.range g.numSides :=
            getLinkSet_range g st F HF fuel u acc0 h1
          have ha1card : (Finset.range g.numSides \ getLinkSet g st F fuel u acc0).card
              ≤ (Finset.range g.numSides \ acc0).card :=
            Finset.card_le_card
              (Finset.sdiff_subset_sdiff (subset_refl _) (getLinkSet_subset g st F fuel u acc0))
          rcases ihl (getLinkSet g st F fuel u acc0) ha1univ (lt_of_le_of_lt ha1card h2) x hx with
            hxa | hcl
          · rcases ih u acc0 h1 h2 x hxa with hx0 | hcl2
            · left
              exact hx0
            · right
              intro t htn htF
              exact Finset.mem_of_subset
                (foldl_mono_subset _ (fun a u2 => getLinkSet_subset g st F fuel u2 a) l _)
                (hcl2 t htn htF)
          · right
            exact hcl
      intro x hx
      rcases foldCl (g.getAllLinkedSides st s) (insert s acc)
          (Finset.insert_subset hsuniv hacc) hcard2 x hx with hxi | hcl
      · rcases Finset.mem_insert.mp hxi with rfl | hxa
        · right
          intro t htn htF
          exact cover _ _ t htn htF
        · left
          exact hxa
      · right
        exact hcl

/-- Completeness of the fully fuelled flood from an empty visited set:
every side reachable from the seed is collected. -/
theorem linkReach_mem_getLinkSet (g : SideGraph) (st : Nat → SideStatus) (F : Nat → Bool)
    (HF : ∀ x, F x = true → x < g.numSides) {s x : Nat} (hs : F s = true)
    (hr : LinkReach g st F s x) : x ∈ getLinkSet g st F (sideFuel g) s ∅ := by
  induction hr with
  | refl => exact getLinkSet_mem_self g st F (sideFuel g) s ∅ hs (Nat.succ_pos _)
  | tail hab hbc ih =>
    rcases getLinkSet_closed g st F HF (sideFuel g) s ∅ (Finset.empty_subset _)
        (by simp [sideFuel]) _ ih with hb0 | hclb
    · exact absurd hb0 (Finset.not_mem_empty _)
    · exact hclb _ hbc.2.2 hbc.2.1

/-- Membership in the fully fuelled flood from an empty visited set is
exactly reachability from the seed. -/
theorem mem_linkCollect_iff (g : SideGraph) (st : Nat → SideStatus) (F : Nat → Bool)
    (HF : ∀ x, F x = true → x < g.numSides) {s : Nat} (hs : F s = true) (x : Nat) :
    x ∈ getLinkSet g st F (sideFuel g) s ∅ ↔ LinkReach g st F s x := by
  constructor
  · intro h
    rcases getLinkSet_sound g st F (sideFuel g) s ∅ x h with h0 | ⟨hr, -⟩
    · exact absurd h0 (Finset.not_mem_empty x)
    · exact hr
  · exact linkReach_mem_getLinkSet g st F HF hs

/-- Every end of a reachability chain from a filter-passing seed passes
the filter. -/
theorem linkReach_filter {g : SideGraph} {st : Nat → SideStatus} {F : Nat → Bool} {s x : Nat}
    (hs : F s = true) (h : LinkReach g st F s x) : F x = true := by
  induction h with
  | refl => exact hs
  | tail _ hbc _ => exact hbc.2.1

/-- Reachable sides all carry the seed's status. -/
theorem linkReach_status {g : SideGraph} {st : Nat → SideStatus} {F : Nat → Bool} {s x : Nat}
    (h : LinkReach g st F s x) : st x = st s := by
  induction h with
  | refl => rfl
  | tail _ hbc ih => exact (status_of_mem_getAllLinkedSides hbc.2.2).trans ih

/-- Membership in the connected-side list: a different side registered at
one of the two endpoints. -/
theorem mem_getAllConnectedSides_iff {g : SideGraph} {s t : Nat} :
    t ∈ g.getAllConnectedSides s ↔
      t ≠ s ∧ (t ∈ g.vertSides (g.sideVerts s).1 ∨ t ∈ g.vertSides (g.sideVerts s).2) := by
  unfold SideGraph.getAllConnectedSides SideGraph.getAllSidesExcept
  simp only [List.mem_append, List.mem_filter, decide_eq_true_eq]
  tauto

/-- What a successful `getConnectionVertex` means: the sides are
connected, and the returned vertex is an endpoint of both. -/
theorem connVertex_spec {g : SideGraph} {s t w : Nat} (h : g.getConnectionVertex s t = some w) :
    t ∈ g.getAllConnectedSides s
    ∧ ((g.sideVerts s).1 = w ∨ (g.sideVerts s).2 = w)
    ∧ ((g.sideVerts t).1 = w ∨ (g.sideVerts t).2 = w) := by
  unfold SideGraph.getConnectionVertex at h
  split_ifs at h with c1 c2 c3
  · injection h with h
    refine ⟨c1, Or.inl h, ?_⟩
    rcases c2 with c | c
    · exact Or.inl (c.trans h)
    · exact Or.inr (c.trans h)
  · injection h with h
    refine ⟨c1, Or.inr h, ?_⟩
    rcases c3 with c | c
    · exact Or.inl (c.trans h)
    · exact Or.inr (c.trans h)

/-- On a well-formed board, two distinct connected sides sharing the
vertex `w` have connection vertex exactly `w`. -/
theorem connVertex_of_shared {g : SideGraph} (wf : g.WF) {s t : Nat}
    (hs : s < g.numSides) (ht : t < g.numSides) (hne : s ≠ t)
    (hconn : t ∈ g.getAllConnectedSides s) {w : Nat}
    (hws : (g.sideVerts s).1 = w ∨ (g.sideVerts s).2 = w)
    (hwt : (g.sideVerts t).1 = w ∨ (g.sideVerts t).2 = w) :
    g.getConnectionVertex s t = some w := by
  unfold SideGraph.getConnectionVertex
  rw [if_pos hconn]
  by_cases h1 : (g.sideVerts t).1 = (g.sideVerts s).1 ∨ (g.sideVerts t).2 = (g.sideVerts s).1
  · rw [if_pos h1]
    have heq : (g.sideVerts s).1 = w :=
      wf.sharedUnique s t hs ht hne (g.sideVerts s).1 w (Or.inl rfl)
        (by rcases h1 with h | h
            · exact Or.inl h
            · exact Or.inr h) hws hwt
    rw [heq]
  · rw [if_neg h1]
    have hw2 : (g.sideVerts s).2 = w := by
      rcases hws with h | h
      · exfalso
        apply h1
        rcases hwt with h2 | h2
        · exact Or.inl (h2.trans h.symm)
        · exact Or.inr (h2.trans h.symm)
      · exact h
    rw [if_pos (by
      rcases hwt with h2 | h2
      · exact Or.inl (h2.trans hw2.symm)
      · exact Or.inr (h2.trans hw2.symm))]
    rw [hw2]

/-- On a well-formed board the linked-side relation is symmetric. -/
theorem getAllLinkedSides_symm (g : SideGraph) (wf : g.WF) (st : Nat → SideStatus)
    {u v : Nat} (hu : u < g.numSides) (hv : v < g.numSides)
    (h : v ∈ g.getAllLinkedSides st u) : u ∈ g.getAllLinkedSides st v := by
  unfold SideGraph.getAllLinkedSides at h ⊢
  rw [List.mem_filter] at h ⊢
  obtain ⟨hconn, hlink⟩ := h
  unfold SideGraph.isLinkedTo at hlink
  split_ifs at hlink with c1 c2
  rcases hcv : g.getConnectionVertex u v with - | w
  · rw [hcv] at hlink
    exact absurd hlink (by simp)
  · rw [hcv] at hlink
    have hspec := connVertex_spec hcv
    have hnevu : v ≠ u := (mem_getAllConnectedSides_iff.mp hconn).1
    have hst : st u = st v := c2.resolve_left (by simp)
    have hwlt : w < g.numVerts := by
      rcases hspec.2.1 with he | he
      · rw [← he]
        exact (wf.endsLt u hu).1
      · rw [← he]
        exact (wf.endsLt u hu).2
    have huw : u ∈ g.vertSides w := (wf.memVertSides w u hwlt).mpr ⟨hu, hspec.2.1⟩
    have hconn2 : u ∈ g.getAllConnectedSides v := by
      rw [mem_getAllConnectedSides_iff]
      refine ⟨fun he => hnevu he.symm, ?_⟩
      rcases hspec.2.2 with he | he
      · left
        rw [he]
        exact huw
      · right
        rw [he]
        exact huw
    have hcv2 : g.getConnectionVertex v u = some w :=
      connVertex_of_shared wf hv hu hnevu hconn2 hspec.2.2 hspec.2.1
    refine ⟨hconn2, ?_⟩
    unfold SideGraph.isLinkedTo
    rw [if_pos (by rw [← hst]; exact c1), if_pos (Or.inr hst.symm), hcv2]
    rw [List.all_eq_true] at hlink ⊢
    intro x hx
    have hx2 := hlink x hx
    simp only [decide_eq_true_eq] at hx2 ⊢
    tauto

/-- The filtered link-step relation is symmetric on a well-formed board
whose filter stays in range. -/
theorem linkStep_symm (g : SideGraph) (wf : g.WF) (st : Nat → SideStatus) (F : Nat → Bool)
    (HF : ∀ x, F x = true → x < g.numSides) {u v : Nat} (h : LinkStep g st F u v) :
    LinkStep g st F v u :=
  ⟨h.2.1, h.1, getAllLinkedSides_symm g wf st (HF u h.1) (HF v h.2.1) h.2.2⟩

/-- Reachability is symmetric on a well-formed board. -/
theorem linkReach_symm (g : SideGraph) (wf : g.WF) (st : Nat → SideStatus) (F : Nat → Bool)
    (HF : ∀ x, F x = true → x < g.numSides) {u v : Nat} (h : LinkReach g st F u v) :
    LinkReach g st F v u := by
  induction h with
  | refl => exact Relation.ReflTransGen.refl
  | tail hab hbc ih => exact Relation.ReflTransGen.head (linkStep_symm g wf st F HF hbc) ih

/-- Every collected member generates the same flood: the collected sets
are the equivalence classes of reachability. -/
theorem linkCollect_class_eq (g : SideGraph) (wf : g.WF) (st : Nat → SideStatus)
    (F : Nat → Bool) (HF : ∀ x, F x = true → x < g.numSides) {s x : Nat} (hs : F s = true)
    (hx : x ∈ getLinkSet g st F (sideFuel g) s ∅) :
    getLinkSet g st F (sideFuel g) x ∅ = getLinkSet g st F (sideFuel g) s ∅ := by
  have hr : LinkReach g st F s x := (mem_linkCollect_iff g st F HF hs x).mp hx
  have hFx : F x = true := linkReach_filter hs hr
  ext y
  rw [mem_linkCollect_iff g st F HF hFx y, mem_linkCollect_iff g st F HF hs y]
  constructor
  · intro h
    exact Relation.ReflTransGen.trans hr h
  · intro h
    exact Relation.ReflTransGen.trans (linkReach_symm g wf st F HF hr) h

/-!
## C9: the unset-link partition of a cell
-/

/-- What a successful `fromSide` produced: the link's member set is the
flood from the seed, and the flooded set passed validation. -/
theorem fromSide_some_spec {g : SideGraph} {st : Nat → SideStatus} {F0 : Option (Nat → Bool)}
    {y : Nat} {l : SideLink} (h : SideLink.fromSide g st F0 y = some l) :
    l.sides = getLinkSet g st (optFilter F0) (sideFuel g) y ∅
    ∧ (validateLink g st (sideList g l.sides)).isSome = true
    ∧ st y ≠ .BLANK ∧ seedRejected F0 y = false := by
  unfold SideLink.fromSide at h
  by_cases hb : st y = SideStatus.BLANK
  · rw [if_pos hb] at h
    exact absurd h (by simp)
  · rw [if_neg hb] at h
    by_cases hf : seedRejected F0 y = true
    · rw [if_pos hf] at h
      exact absurd h (by simp)
    · rw [if_neg hf] at h
      cases hv : validateLink g st
          (sideList g (getLinkSet g st (optFilter F0) (sideFuel g) y ∅)) with
      | none =>
        rw [hv] at h
        exact absurd h (by simp)
      | some triple =>
        obtain ⟨lv, ep, el⟩ := triple
        rw [hv] at h
        dsimp only at h
        cases h
        exact ⟨rfl, by rw [hv]; rfl, hb, by simpa using hf⟩

/-- When the pre-checks pass, `fromSide` succeeds exactly when the flooded
set validates. -/
theorem fromSide_isSome_eq {g : SideGraph} {st : Nat → SideStatus} {F0 : Option (Nat → Bool)}
    {y : Nat} (hb : st y ≠ .BLANK) (hf : seedRejected F0 y = false) :
    (SideLink.fromSide g st F0 y).isSome
      = (validateLink g st (sideList g (getLinkSet g st (optFilter F0) (sideFuel g) y ∅))).isSome := by
  unfold SideLink.fromSide
  rw [if_neg hb, if_neg (by simp [hf])]
  cases hv : validateLink g st (sideList g (getLinkSet g st (optFilter F0) (sideFuel g) y ∅)) with
  | none => rfl
  | some triple =>
    obtain ⟨lv, ep, el⟩ := triple
    rfl

/-- The finished-side set grows along the loop of `getUnsetSideLinks`. -/
theorem unsetLinkStep_finished_subset (g : SideGraph) (st : Nat → SideStatus)
    (cellSides : List Nat) (p : List SideLink × Finset Nat) (y : Nat) :
    p.2 ⊆ (unsetLinkStep g st cellSides p y).2 := by
  unfold unsetLinkStep
  split
  · split
    · exact Finset.subset_union_left
    · exact subset_rfl
  · exact subset_rfl

/-- Links already kept remain kept along the loop of
`getUnsetSideLinks`. -/
theorem unsetLinkStep_links_mono (g : SideGraph) (st : Nat → SideStatus)
    (cellSides : List Nat) (p : List SideLink × Finset Nat) (y : Nat) {l : SideLink}
    (h : l ∈ p.1) : l ∈ (unsetLinkStep g st cellSides p y).1 := by
  unfold unsetLinkStep
  split
  · split
    · exact List.mem_append_left _ h
    · exact h
  · exact h

/-- The finished-side set grows along the whole fold. -/
theorem unsetLinkFold_finished_subset (g : SideGraph) (st : Nat → SideStatus)
    (cellSides : List Nat) (todo : List Nat) :
    ∀ p : List SideLink × Finset Nat,
      p.2 ⊆ (todo.foldl (unsetLinkStep g st cellSides) p).2 := by
  induction todo with
  | nil => intro p; exact subset_rfl
  | cons y todo ih =>
    intro p
    exact (unsetLinkStep_finished_subset g st cellSides p y).trans
      (ih (unsetLinkStep g st cellSides p y))

/-- Kept links persist along the whole fold. -/
theorem unsetLinkFold_links_mono (g : SideGraph) (st : Nat → SideStatus)
    (cellSides : List Nat) (todo : List Nat) :
    ∀ p : List SideLink × Finset Nat, ∀ l ∈ p.1,
      l ∈ (todo.foldl (unsetLinkStep g st cellSides) p).1 := by
  induction todo with
  | nil => intro p l h; exact h
  | cons y todo ih =>
    intro p l h
    exact ih _ _ (unsetLinkStep_links_mono g st cellSides p y h)

/-- The loop invariant of `getUnsetSideLinks`: every kept link consists of
UNSET cell sides, is exactly the flood of each of its members (the
reachability class), and passed validation; the finished set is exactly
the union of the kept links; and the kept links are pairwise disjoint. -/
def UnsetLinkInv (g : SideGraph) (st : Nat → SideStatus) (cellSides : List Nat)
    (p : List SideLink × Finset Nat) : Prop :=
  (∀ l ∈ p.1,
      (∀ x ∈ l.sides, st x = SideStatus.UNSET ∧ x ∈ cellSides)
      ∧ (∀ x ∈ l.sides, getLinkSet g st (cellFilter cellSides) (sideFuel g) x ∅ = l.sides)
      ∧ (validateLink g st (sideList g l.sides)).isSome = true)
  ∧ (∀ x, x ∈ p.2 ↔ ∃ l ∈ p.1, x ∈ l.sides)
  ∧ List.Pairwise (fun l1 l2 => Disjoint l1.sides l2.sides) p.1

/-- One loop iteration preserves the invariant. -/
theorem unsetLinkStep_inv (g : SideGraph) (wf : g.WF) (st : Nat → SideStatus)
    (cellSides : List Nat) (Hcs : ∀ s ∈ cellSides, s < g.numSides)
    (p : List SideLink × Finset Nat) (y : Nat) (hy : y ∈ cellSides)
    (hp : UnsetLinkInv g st cellSides p) :
    UnsetLinkInv g st cellSides (unsetLinkStep g st cellSides p y) := by
  have HFF : ∀ x, cellFilter cellSides x = true → x < g.numSides := fun x hx =>
    Hcs x (by simpa [cellFilter] using hx)
  unfold unsetLinkStep
  by_cases hguard : y ∉ p.2 ∧ st y = SideStatus.UNSET
  · rw [if_pos hguard]
    cases hfs : SideLink.fromSide g st (some (cellFilter cellSides)) y with
    | none => exact hp
    | some lnew =>
      obtain ⟨hsides, hval, hnb, hsr⟩ := fromSide_some_spec hfs
      rw [show optFilter (some (cellFilter cellSides)) = cellFilter cellSides from rfl] at hsides
      have hFFy : cellFilter cellSides y = true := by simp [cellFilter, hy]
      have hymem : y ∈ lnew.sides := by
        rw [hsides]
        exact getLinkSet_mem_self _ _ _ _ _ _ hFFy (Nat.succ_pos _)
      have hmem_props : ∀ x ∈ lnew.sides, st x = SideStatus.UNSET ∧ x ∈ cellSides := by
        intro x hx
        rw [hsides] at hx
        rcases getLinkSet_sound _ _ _ _ _ _ x hx with h0 | ⟨hr, hFx⟩
        · exact absurd h0 (Finset.not_mem_empty x)
        constructor
        · rw [linkReach_status hr]
          exact hguard.2
        · simpa [cellFilter] using hFx
      have hclass : ∀ x ∈ lnew.sides,
          getLinkSet g st (cellFilter cellSides) (sideFuel g) x ∅ = lnew.sides := by
        intro x hx
        rw [hsides] at hx ⊢
        exact linkCollect_class_eq g wf st _ HFF hFFy hx
      have hdisj : ∀ l ∈ p.1, Disjoint l.sides lnew.sides := by
        intro l hl
        rw [Finset.disjoint_left]
        intro x hxl hxn
        have h1 := (hp.1 l hl).2.1 x hxl
        have h2 := hclass x hxn
        have heq : l.sides = lnew.sides := h1.symm.trans h2
        have hyl : y ∈ l.sides := by
          rw [heq]
          exact hymem
        exact hguard.1 ((hp.2.1 y).mpr ⟨l, hl, hyl⟩)
      refine ⟨?_, ?_, ?_⟩
      · intro l hl
        rcases List.mem_append.mp hl with h | h
        · exact hp.1 l h
        · rw [List.mem_singleton] at h
          subst h
          exact ⟨hmem_props, hclass, hval⟩
      · intro x
        simp only [Finset.mem_union, hp.2.1 x]
        constructor
        · rintro (⟨l, hl, hx⟩ | hx)
          · exact ⟨l, List.mem_append_left _ hl, hx⟩
          · exact ⟨lnew, List.mem_append_right _ (List.mem_singleton_self lnew), hx⟩
        · rintro ⟨l, hl, hx⟩
          rcases List.mem_append.mp hl with h | h
          · exact Or.inl ⟨l, h, hx⟩
          · rw [List.mem_singleton] at h
            subst h
            exact Or.inr hx
      · rw [List.pairwise_append]
        refine ⟨hp.2.2, List.pairwise_singleton _ _, ?_⟩
        intro l1 hl1 l2 hl2
        rw [List.mem_singleton] at hl2
        subst hl2
        exact hdisj l1 hl1
  · rw [if_neg hguard]
    exact hp

/-- The whole loop preserves the invariant. -/
theorem unsetLinkFold_inv (g : SideGraph) (wf : g.WF) (st : Nat → SideStatus)
    (cellSides : List Nat) (Hcs : ∀ s ∈ cellSides, s < g.numSides) :
    ∀ todo : List Nat, (∀ y ∈ todo, y ∈ cellSides) →
      ∀ p, UnsetLinkInv g st cellSides p →
        UnsetLinkInv g st cellSides (todo.foldl (unsetLinkStep g st cellSides) p) := by
  intro todo
  induction todo with
  | nil => intro _ p hp; exact hp
  | cons y todo ih =>
    intro hsub p hp
    exact ih (fun z hz => hsub z (List.mem_cons_of_mem y hz)) _
      (unsetLinkStep_inv g wf st cellSides Hcs p y (hsub y (List.mem_cons_self y todo)) hp)

/-- Coverage: a still-to-be-processed UNSET side whose seeded link
validates ends up in the finished set. -/
theorem unsetLinkFold_cover (g : SideGraph) (wf : g.WF) (st : Nat → SideStatus)
    (cellSides : List Nat) (Hcs : ∀ s ∈ cellSides, s < g.numSides) :
    ∀ todo : List Nat, (∀ y ∈ todo, y ∈ cellSides) →
      ∀ p, UnsetLinkInv g st cellSides p →
        ∀ x ∈ todo, st x = SideStatus.UNSET →
          (SideLink.fromSide g st (some (cellFilter cellSides)) x).isSome = true →
          x ∈ (todo.foldl (unsetLinkStep g st cellSides) p).2 := by
  intro todo
  induction todo with
  | nil => intro _ p hp x hx; exact absurd hx (List.not_mem_nil x)
  | cons y todo ih =>
    intro hsub p hp x hx hst hsome
    rcases List.mem_cons.mp hx with rfl | hx2
    · by_cases hin : x ∈ p.2
      · exact Finset.mem_of_subset (unsetLinkFold_finished_subset g st cellSides todo _)
          (unsetLinkStep_finished_subset g st cellSides p x hin)
      · have hstep : x ∈ (unsetLinkStep g st cellSides p x).2 := by
          unfold unsetLinkStep
          rw [if_pos ⟨hin, hst⟩]
          cases hfs : SideLink.fromSide g st (some (cellFilter cellSides)) x with
          | none => simp [hfs] at hsome
          | some lnew =>
            have hsides := (fromSide_some_spec hfs).1
            rw [show optFilter (some (cellFilter cellSides)) = cellFilter cellSides from
              rfl] at hsides
            refine Finset.mem_union_right _ ?_
            rw [hsides]
            exact getLinkSet_mem_self _ _ _ _ _ _
              (by simp [cellFilter, hsub x (List.mem_cons_self x todo)]) (Nat.succ_pos _)
        exact Finset.mem_of_subset (unsetLinkFold_finished_subset g st cellSides todo _) hstep
    · exact ih (fun z hz => hsub z (List.mem_cons_of_mem y hz)) _
        (unsetLinkStep_inv g wf st cellSides Hcs p y (hsub y (List.mem_cons_self y todo)) hp)
        x hx2 hst hsome

/-- C9 (amended): `getUnsetSideLinks` returns links whose member sides are
all UNSET sides of the cell, the returned links are pairwise disjoint, and
an UNSET side of the cell belongs to a returned link (necessarily exactly
one, by disjointness) precisely when the link flood seeded at it passes
`SideLink` validation; a side whose flood fails validation (as happens
when the cell's unset sides close into a loop, which has no endpoints)
belongs to no returned link. -/
theorem getUnsetSideLinks_partition (g : SideGraph) (wf : g.WF) (st : Nat → SideStatus)
    (cellSides : List Nat) (Hcs : ∀ s ∈ cellSides, s < g.numSides) :
    (∀ l ∈ getUnsetSideLinks g st cellSides, ∀ x ∈ l.sides,
        st x = SideStatus.UNSET ∧ x ∈ cellSides)
    ∧ List.Pairwise (fun l1 l2 => Disjoint l1.sides l2.sides) (getUnsetSideLinks g st cellSides)
    ∧ ∀ x ∈ cellSides, st x = SideStatus.UNSET →
        ((∃ l ∈ getUnsetSideLinks g st cellSides, x ∈ l.sides) ↔
          (SideLink.fromSide g st (some (cellFilter cellSides)) x).isSome = true) := by
  have hinv0 : UnsetLinkInv g st cellSides ([], ∅) := by
    refine ⟨?_, ?_, List.Pairwise.nil⟩
    · intro l hl
      exact absurd hl (List.not_mem_nil l)
    · intro x
      simp
  have hinv := unsetLinkFold_inv g wf st cellSides Hcs cellSides (fun y h => h) ([], ∅) hinv0
  refine ⟨?_, hinv.2.2, ?_⟩
  · intro l hl x hx
    exact (hinv.1 l hl).1 x hx
  · intro x hxc hst
    constructor
    · rintro ⟨l, hl, hxl⟩
      have hprops := hinv.1 l hl
      have hb : st x ≠ SideStatus.BLANK := by
        rw [hst]
        exact fun h => SideStatus.noConfusion h
      have hsr : seedRejected (some (cellFilter cellSides)) x = false := by
        simp [seedRejected, cellFilter, hxc]
      rw [fromSide_isSome_eq hb hsr]
      have hclassx := hprops.2.1 x hxl
      rw [show optFilter (some (cellFilter cellSides)) = cellFilter cellSides from rfl, hclassx]
      exact hprops.2.2
    · intro hsome
      exact (hinv.2.1 x).mp
        (unsetLinkFold_cover g wf st cellSides Hcs cellSides (fun y h => h) ([], ∅) hinv0
          x hxc hst hsome)

/-- The local neighborhood of the center cell of a 3-row board with all
six limbs decided: its six hexagon sides (ids 0-5, around vertices 0-5)
and the six limbs (ids 6-11, from hexagon vertex `i` to outer vertex
`6 + i`). -/
def hexLoopGraph : SideGraph where
  numSides := 12
  numVerts := 12
  sideVerts := fun s =>
    if s < 6 then (s, (s + 1) % 6)
    else if s < 12 then (s - 6, s)
    else (0, 0)
  vertSides := fun v =>
    if v < 6 then [(v + 5) % 6, v, v + 6]
    else if v < 12 then [v]
    else []

/-- Statuses around the loop cell: the six hexagon sides UNSET, all six
limbs BLANK. -/
def stHexLoop : Nat → SideStatus :=
  fun s => if s < 6 then .UNSET else .BLANK

/-- C9 (counterexample): on a cell whose six UNSET sides close into a
loop (all limbs BLANK), the flood from any side collects the whole
6-cycle, which has no endpoint vertices and fails `SideLink` validation,
so `getUnsetSideLinks` returns no links at all — side 0 is UNSET and
belongs to the cell yet to no returned link, against the claim that every
UNSET side belongs to exactly one returned link. -/
theorem getUnsetSideLinks_loop_counterexample :
    getUnsetSideLinks hexLoopGraph stHexLoop [0, 1, 2, 3, 4, 5] = []
    ∧ stHexLoop 0 = .UNSET := by
  constructor
  · decide
  · rfl

/-- The one-side board is well-formed. -/
theorem oneSideGraph_wf : oneSideGraph.WF := by
  constructor
  · intro s hs
    constructor <;> simp [oneSideGraph]
  · intro s hs
    simp [oneSideGraph]
  · intro v s hv
    simp only [oneSideGraph] at hv
    interval_cases v <;> simp [oneSideGraph]
  · intro v
    unfold oneSideGraph
    dsimp only
    split
    · simp
    · simp
  · intro s t hs ht hne
    simp only [oneSideGraph] at hs ht
    intro v w _ _ _ _
    omega

/-- C9 (witness): on the one-side board the single unset side does belong
to a returned link. -/
theorem getUnsetSideLinks_partition_witness :
    ∃ l ∈ getUnsetSideLinks oneSideGraph allUnset [0], 0 ∈ l.sides :=
  ((getUnsetSideLinks_partition oneSideGraph oneSideGraph_wf allUnset [0]
      (by intro s hs; simp at hs; subst hs; decide)).2.2 0 (by decide) rfl).mpr (by decide)

/-!
## C10: a side id is enqueued at most once per solver lifetime
-/

/-- The lifetime invariant of the solver queue: every move ever appended
to the pending list has its side id in the processed set, and the logged
side ids are pairwise distinct. -/
def EnqueueInv (s : SolverState) : Prop :=
  (∀ m ∈ s.enqLog, m.sideId ∈ s.processedSideIds)
  ∧ (s.enqLog.map HexGameMove.sideId).Nodup

/-- `addNextMove` preserves the lifetime invariant and only grows the
processed set. -/
theorem addNextMove_enqueueInv (st : Nat → SideStatus) (s : SolverState) (side : Option Nat)
    (n : SideStatus) (pr : Nat) (h : EnqueueInv s) :
    EnqueueInv (addNextMove st s side n pr)
    ∧ s.processedSideIds ⊆ (addNextMove st s side n pr).processedSideIds := by
  unfold addNextMove
  cases side with
  | none => exact ⟨h, subset_rfl⟩
  | some sid =>
    dsimp only
    by_cases hg : st sid = SideStatus.UNSET ∧ n ≠ SideStatus.UNSET ∧ sid ∉ s.processedSideIds
    · rw [if_pos hg]
      refine ⟨⟨?_, ?_⟩, Finset.subset_insert _ _⟩
      · intro m hm
        rcases List.mem_append.mp hm with h1 | h1
        · exact Finset.mem_insert_of_mem (h.1 m h1)
        · rw [List.mem_singleton] at h1
          subst h1
          exact Finset.mem_insert_self _ _
      · simp only [List.map_append, List.map_cons, List.map_nil]
        rw [List.nodup_append]
        refine ⟨h.2, List.nodup_singleton _, ?_⟩
        intro a ha hb
        rw [List.mem_singleton] at hb
        subst hb
        rcases List.mem_map.mp ha with ⟨m, hm, hid⟩
        exact hg.2.2 (hid ▸ h.1 m hm)
    · rw [if_neg hg]
      exact ⟨h, subset_rfl⟩

/-- `extendNextMoves` (per element) preserves the lifetime invariant and
only grows the processed set. -/
theorem extendNextMove_enqueueInv (st : Nat → SideStatus) (s : SolverState) (m0 : HexGameMove)
    (h : EnqueueInv s) :
    EnqueueInv (extendNextMove st s m0)
    ∧ s.processedSideIds ⊆ (extendNextMove st s m0).processedSideIds := by
  unfold extendNextMove
  by_cases hg : st m0.sideId = SideStatus.UNSET ∧ m0.newStatus ≠ SideStatus.UNSET
      ∧ m0.sideId ∉ s.processedSideIds
  · rw [if_pos hg]
    refine ⟨⟨?_, ?_⟩, Finset.subset_insert _ _⟩
    · intro m hm
      rcases List.mem_append.mp hm with h1 | h1
      · exact Finset.mem_insert_of_mem (h.1 m h1)
      · rw [List.mem_singleton] at h1
        subst h1
        exact Finset.mem_insert_self _ _
    · simp only [List.map_append, List.map_cons, List.map_nil]
      rw [List.nodup_append]
      refine ⟨h.2, List.nodup_singleton _, ?_⟩
      intro a ha hb
      rw [List.mem_singleton] at hb
      subst hb
      rcases List.mem_map.mp ha with ⟨m, hm, hid⟩
      exact hg.2.2 (hid ▸ h.1 m hm)
  · rw [if_neg hg]
    exact ⟨h, subset_rfl⟩

/-- One lifetime event preserves the invariant and only grows the
processed set. -/
theorem stepEvent_enqueueInv (p : (Nat → SideStatus) × SolverState) (e : SolverEvent)
    (h : EnqueueInv p.2) :
    EnqueueInv (stepEvent p e).2 ∧ p.2.processedSideIds ⊆ (stepEvent p e).2.processedSideIds := by
  obtain ⟨st, s⟩ := p
  cases e with
  | propose side n pr => exact addNextMove_enqueueInv st s side n pr h
  | extend m => exact extendNextMove_enqueueInv st s m h
  | popFront => exact ⟨h, subset_rfl⟩
  | writeStatus sid v => exact ⟨h, subset_rfl⟩

/-- Any event sequence preserves the invariant and only grows the
processed set. -/
theorem foldEvents_enqueueInv (evs : List SolverEvent) :
    ∀ p : (Nat → SideStatus) × SolverState, EnqueueInv p.2 →
      EnqueueInv (evs.foldl stepEvent p).2
      ∧ p.2.processedSideIds ⊆ (evs.foldl stepEvent p).2.processedSideIds := by
  induction evs with
  | nil => intro p h; exact ⟨h, subset_rfl⟩
  | cons e evs ih =>
    intro p h
    have h1 := stepEvent_enqueueInv p e h
    have h2 := ih (stepEvent p e) h1.1
    exact ⟨h2.1, h1.2.trans h2.2⟩

/-- C10: over any lifetime of a solver instance — arbitrary interleavings
of inspection enqueues (`addNextMove`), `extendNextMoves` elements, queue
pops, and board-status writes (solver applications, manual toggles,
undos) — the side ids of all moves ever added to the pending-move list
are pairwise distinct, and the processed-side-id set only ever grows
(it is never cleared). -/
theorem solver_enqueues_each_side_once (evs evs2 : List SolverEvent) (st0 : Nat → SideStatus) :
    ((runEvents evs st0).2.enqLog.map HexGameMove.sideId).Nodup
    ∧ (runEvents evs st0).2.processedSideIds
        ⊆ (runEvents (evs ++ evs2) st0).2.processedSideIds := by
  have h0 : EnqueueInv SolverState.init :=
    ⟨fun m hm => absurd hm (List.not_mem_nil m), List.nodup_nil⟩
  constructor
  · exact (foldEvents_enqueueInv evs (st0, SolverState.init) h0).1.2
  · unfold runEvents
    rw [List.foldl_append]
    exact (foldEvents_enqueueInv evs2 (evs.foldl stepEvent (st0, SolverState.init))
      ((foldEvents_enqueueInv evs (st0, SolverState.init) h0).1)).2

/-!
## C1: solver moves target UNSET sides and the solve loop terminates
-/

/-- The shape of every move the solver itself creates: a non-UNSET new
status, recorded previous status UNSET, and a real side id of the
board. -/
def SolverMoveInv (g : SideGraph) (m : HexGameMove) : Prop :=
  m.newStatus ≠ SideStatus.UNSET ∧ m.prevStatus = some SideStatus.UNSET
    ∧ m.sideId < g.numSides

/-- Invariant of the pending-move list. -/
def QueueInv (g : SideGraph) (s : SolverState) : Prop :=
  ∀ m ∈ s.nextMoveList, SolverMoveInv g m

/-- `addNextMove` preserves the queue invariant (when the proposal's side
id is a real side) and every move it adds targets a currently UNSET
side. -/
theorem addNextMove_spec (g : SideGraph) (st : Nat → SideStatus) (s : SolverState)
    (side : Option Nat) (n : SideStatus) (pr : Nat)
    (hrange : ∀ sid, side = some sid → sid < g.numSides) (hq : QueueInv g s) :
    QueueInv g (addNextMove st s side n pr)
    ∧ ∀ m ∈ (addNextMove st s side n pr).nextMoveList,
        m ∈ s.nextMoveList ∨ st m.sideId = SideStatus.UNSET := by
  unfold addNextMove
  cases side with
  | none => exact ⟨hq, fun m hm => Or.inl hm⟩
  | some sid =>
    dsimp only
    by_cases hg : st sid = SideStatus.UNSET ∧ n ≠ SideStatus.UNSET ∧ sid ∉ s.processedSideIds
    · rw [if_pos hg]
      constructor
      · intro m hm
        rcases List.mem_append.mp hm with h1 | h1
        · exact hq m h1
        · rw [List.mem_singleton] at h1
          subst h1
          exact ⟨hg.2.1, rfl, hrange sid rfl⟩
      · intro m hm
        rcases List.mem_append.mp hm with h1 | h1
        · exact Or.inl h1
        · rw [List.mem_singleton] at h1
          subst h1
          exact Or.inr hg.1
    · rw [if_neg hg]
      exact ⟨hq, fun m hm => Or.inl hm⟩

/-- Every enqueue of an inspection pass preserves the queue invariant,
and every move it adds targets a currently UNSET side. -/
theorem runInspection_spec (g : SideGraph) (props : List MoveProposal)
    (st : Nat → SideStatus)
    (hrange : ∀ p ∈ props, ∀ sid, p.side = some sid → sid < g.numSides) :
    ∀ s : SolverState, QueueInv g s →
      QueueInv g (runInspection props st s)
      ∧ ∀ m ∈ (runInspection props st s).nextMoveList,
          m ∈ s.nextMoveList ∨ st m.sideId = SideStatus.UNSET := by
  induction props with
  | nil => intro s hq; exact ⟨hq, fun m hm => Or.inl hm⟩
  | cons p props ih =>
    intro s hq
    have hstep := addNextMove_spec g st s p.side p.newStatus p.priority
      (hrange p (List.mem_cons_self p props)) hq
    have hrest := ih (fun q hqp => hrange q (List.mem_cons_of_mem p hqp)) _ hstep.1
    refine ⟨hrest.1, ?_⟩
    intro m hm
    rcases hrest.2 m hm with h1 | h1
    · exact hstep.2 m h1
    · exact Or.inr h1

/-- What a successful drain pop guarantees: the move targets an UNSET
side, came from the drained list, and the remaining moves all come from
the drained list. -/
theorem drainMoves_spec (sorter : List HexGameMove → List HexGameMove)
    (st : Nat → SideStatus) (HS : ∀ (l : List HexGameMove) m, m ∈ sorter l → m ∈ l) :
    ∀ (fuel : Nat) (l : List HexGameMove) (m : HexGameMove) (rest : List HexGameMove),
      drainMoves sorter st fuel l = (some m, rest) →
      st m.sideId = SideStatus.UNSET ∧ m ∈ l ∧ ∀ m2 ∈ rest, m2 ∈ l := by
  intro fuel
  induction fuel with
  | zero =>
    intro l m rest h
    exact absurd h (by unfold drainMoves; simp)
  | succ fuel ih =>
    intro l m rest h
    unfold drainMoves at h
    cases hl : sorter l with
    | nil =>
      rw [hl] at h
      exact absurd h (by simp)
    | cons m0 rest0 =>
      rw [hl] at h
      dsimp only at h
      by_cases hu : st m0.sideId = SideStatus.UNSET
      · rw [if_pos hu] at h
        have h1 : some m0 = some m := congrArg Prod.fst h
        have h2 : rest0 = rest := congrArg Prod.snd h
        injection h1 with h1
        subst h1
        subst h2
        refine ⟨hu, HS l m0 (by rw [hl]; exact List.mem_cons_self m0 rest0), ?_⟩
        intro m2 hm2
        exact HS l m2 (by rw [hl]; exact List.mem_cons_of_mem m0 hm2)
      · rw [if_neg hu] at h
        obtain ⟨h1, h2, h3⟩ := ih rest0 m rest h
        have hsub : ∀ m2 ∈ rest0, m2 ∈ l := fun m2 hm2 =>
          HS l m2 (by rw [hl]; exact List.mem_cons_of_mem m0 hm2)
        exact ⟨h1, hsub m h2, fun m2 hm2 => hsub m2 (h3 m2 hm2)⟩

/-- What a successful `getNextMove` guarantees: the returned move targets
a side that is still UNSET, the move has the solver shape, and the queue
invariant is preserved. -/
theorem getNextMove_spec (g : SideGraph)
    (rules : (Nat → SideStatus) → List MoveProposal)
    (sorter : List HexGameMove → List HexGameMove)
    (HS : ∀ (l : List HexGameMove) m, m ∈ sorter l → m ∈ l)
    (HR : ∀ st2 p, p ∈ rules st2 → ∀ sid, p.side = some sid → sid < g.numSides)
    (st : Nat → SideStatus) (s : SolverState) (hq : QueueInv g s)
    (m : HexGameMove) (s2 : SolverState)
    (h : getNextMove rules sorter st s = (some m, s2)) :
    st m.sideId = SideStatus.UNSET ∧ SolverMoveInv g m ∧ QueueInv g s2 := by
  unfold getNextMove at h
  cases hd : drainMoves sorter st (s.nextMoveList.length + 1) s.nextMoveList with
  | mk om rest =>
    rw [hd] at h
    cases om with
    | some m1 =>
      dsimp only at h
      obtain ⟨hu, hmem, hrest⟩ := drainMoves_spec sorter st HS _ _ _ _ hd
      have h1 : some m1 = some m := congrArg Prod.fst h
      have h2 : ({ s with nextMoveList := rest } : SolverState) = s2 := congrArg Prod.snd h
      injection h1 with h1
      subst h1
      subst h2
      exact ⟨hu, hq m1 hmem, fun m2 hm2 => hq m2 (hrest m2 hm2)⟩
    | none =>
      dsimp only at h
      have hq0 : QueueInv g ({ s with nextMoveList := [] } : SolverState) :=
        fun m2 hm2 => absurd hm2 (List.not_mem_nil m2)
      have hins := runInspection_spec g (rules st) st (HR st) _ hq0
      cases hl : (runInspection (rules st) st { s with nextMoveList := [] }).nextMoveList with
      | nil =>
        rw [hl] at h
        exact absurd h (by simp)
      | cons m1 rest1 =>
        rw [hl] at h
        dsimp only at h
        have h1 : some m1 = some m := congrArg Prod.fst h
        have h2 := congrArg Prod.snd h
        injection h1 with h1
        subst h1
        subst h2
        have hm1 : m1 ∈ (runInspection (rules st) st
            { s with nextMoveList := [] }).nextMoveList := by
          rw [hl]
          exact List.mem_cons_self m1 rest1
        have hu : st m1.sideId = SideStatus.UNSET := by
          rcases hins.2 m1 hm1 with h3 | h3
          · exact absurd h3 (List.not_mem_nil m1)
          · exact h3
        refine ⟨hu, hins.1 m1 hm1, ?_⟩
        intro m2 hm2
        refine hins.1 m2 ?_
        rw [hl]
        exact List.mem_cons_of_mem m1 hm2

/-- Applying a solver-shaped move to its UNSET target side sets exactly
that side's status and strictly decreases the UNSET count by one. -/
theorem setSideStatus_unsetCount (g : SideGraph) (orc : Oracle) (gs : GameState)
    (m : HexGameMove) (h1 : gs.st m.sideId = SideStatus.UNSET)
    (h2 : m.newStatus ≠ SideStatus.UNSET) (h3 : m.prevStatus = some SideStatus.UNSET)
    (h4 : m.sideId < g.numSides) :
    (setSideStatus g orc gs m).st = updFn gs.st m.sideId m.newStatus
    ∧ unsetCount g (setSideStatus g orc gs m).st + 1 = unsetCount g gs.st := by
  have hne : gs.st m.sideId ≠ m.newStatus := by
    rw [h1]
    exact fun h => h2 h.symm
  have hupd := (setSideStatus_guard_spec g orc gs m).2.2 hne
    (Or.inr (by rw [h3, h1]))
  refine ⟨hupd.2, ?_⟩
  rw [hupd.2]
  unfold unsetCount
  have hset : (Finset.range g.numSides).filter
      (fun s => updFn gs.st m.sideId m.newStatus s = SideStatus.UNSET)
      = ((Finset.range g.numSides).filter (fun s => gs.st s = SideStatus.UNSET)).erase
          m.sideId := by
    ext x
    simp only [Finset.mem_filter, Finset.mem_erase, updFn]
    by_cases hx : x = m.sideId
    · subst hx
      simp [h2]
    · simp [hx]
  rw [hset, Finset.card_erase_of_mem (by
    simp only [Finset.mem_filter, Finset.mem_range]
    exact ⟨h4, h1⟩)]
  have hpos : 0 < ((Finset.range g.numSides).filter
      (fun s => gs.st s = SideStatus.UNSET)).card :=
    Finset.card_pos.mpr ⟨m.sideId, by
      simp only [Finset.mem_filter, Finset.mem_range]
      exact ⟨h4, h1⟩⟩
  omega

/-- The fuelled solve loop succeeds and applies at most as many moves as
there are UNSET sides, whenever the fuel exceeds the UNSET count. -/
theorem solveAllGo_term (g : SideGraph) (orc : Oracle)
    (rules : (Nat → SideStatus) → List MoveProposal)
    (vicinity : Nat → (Nat → SideStatus) → List MoveProposal)
    (HR : ∀ st2 p, p ∈ rules st2 → ∀ sid, p.side = some sid → sid < g.numSides)
    (HV : ∀ sid st2 p, p ∈ vicinity sid st2 → ∀ s2, p.side = some s2 → s2 < g.numSides) :
    ∀ (fuel : Nat) (gs : GameState) (s : SolverState) (count : Nat), QueueInv g s →
      unsetCount g gs.st < fuel →
      ∃ gsf sf k, solveAllGo g orc rules vicinity fuel gs s count = some (gsf, sf, k)
        ∧ k ≤ count + unsetCount g gs.st := by
  intro fuel
  induction fuel with
  | zero => intro gs s count hq hcnt; omega
  | succ fuel ih =>
    intro gs s count hq hcnt
    cases hgn : getNextMove rules id gs.st s with
    | mk om s1 =>
      cases om with
      | none =>
        refine ⟨gs, s1, count, ?_, by omega⟩
        unfold solveAllGo
        rw [hgn]
      | some m =>
        obtain ⟨hunset, hmi, hq1⟩ := getNextMove_spec g rules id (fun l m2 h => h) HR
          gs.st s hq m s1 hgn
        obtain ⟨hst, hdec⟩ := setSideStatus_unsetCount g orc gs m hunset hmi.1 hmi.2.1 hmi.2.2
        have hq2 : QueueInv g (runInspection (vicinity m.sideId (setSideStatus g orc gs m).st)
            (setSideStatus g orc gs m).st s1) :=
          (runInspection_spec g _ _ (HV m.sideId (setSideStatus g orc gs m).st) s1 hq1).1
        have hlt : unsetCount g (setSideStatus g orc gs m).st < fuel := by omega
        obtain ⟨gsf, sf, k, hrun, hk⟩ := ih (setSideStatus g orc gs m) _ (count + 1) hq2 hlt
        refine ⟨gsf, sf, k, ?_, by omega⟩
        unfold solveAllGo
        rw [hgn]
        exact hrun

/-- C1: every move the solver enqueues targets a currently UNSET side and
carries a non-UNSET new status (hence ACTIVE or BLANK); `getNextMove`
only returns moves whose side is still UNSET; applying such a move through
`setSideStatus` strictly decreases the UNSET-side count; and `solveAll`
terminates after at most `unsetCount` applied moves.  The inspection rule
catalogues `rules` (full-board) and `vicinity` (local re-inspection) are
arbitrary proposal lists over real board sides, covering the rule
catalogue of `hex_solver.py`, because every rule enqueues exclusively
through `addNextMove`. -/
theorem solver_moves_unset_and_terminate (g : SideGraph) (orc : Oracle)
    (rules : (Nat → SideStatus) → List MoveProposal)
    (vicinity : Nat → (Nat → SideStatus) → List MoveProposal)
    (sorter : List HexGameMove → List HexGameMove)
    (HS : ∀ (l : List HexGameMove) m, m ∈ sorter l → m ∈ l)
    (HR : ∀ st2 p, p ∈ rules st2 → ∀ sid, p.side = some sid → sid < g.numSides)
    (HV : ∀ sid st2 p, p ∈ vicinity sid st2 → ∀ s2, p.side = some s2 → s2 < g.numSides) :
    (∀ (st2 : Nat → SideStatus) (s : SolverState) side n pr,
        ∀ m ∈ (addNextMove st2 s side n pr).nextMoveList,
          m ∈ s.nextMoveList ∨
            (st2 m.sideId = SideStatus.UNSET ∧ m.newStatus ≠ SideStatus.UNSET
              ∧ m.prevStatus = some SideStatus.UNSET))
    ∧ (∀ (st2 : Nat → SideStatus) (s : SolverState) m s2, QueueInv g s →
        getNextMove rules sorter st2 s = (some m, s2) → st2 m.sideId = SideStatus.UNSET)
    ∧ (∀ (gs : GameState) (s : SolverState) m s2, QueueInv g s →
        getNextMove rules sorter gs.st s = (some m, s2) →
          unsetCount g (setSideStatus g orc gs m).st + 1 = unsetCount g gs.st)
    ∧ (∀ (gs : GameState) (s : SolverState), QueueInv g s →
        ∃ gsf sf k, solveAll g orc rules vicinity gs s = some (gsf, sf, k)
          ∧ k ≤ unsetCount g gs.st) := by
  refine ⟨?_, ?_, ?_, ?_⟩
  · intro st2 s side n pr m hm
    unfold addNextMove at hm
    cases side with
    | none => exact Or.inl hm
    | some sid =>
      dsimp only at hm
      by_cases hg : st2 sid = SideStatus.UNSET ∧ n ≠ SideStatus.UNSET
          ∧ sid ∉ s.processedSideIds
      · rw [if_pos hg] at hm
        rcases List.mem_append.mp hm with h1 | h1
        · exact Or.inl h1
        · rw [List.mem_singleton] at h1
          subst h1
          exact Or.inr ⟨hg.1, hg.2.1, rfl⟩
      · rw [if_neg hg] at hm
        exact Or.inl hm
  · intro st2 s m s2 hq h
    exact (getNextMove_spec g rules sorter HS HR st2 s hq m s2 h).1
  · intro gs s m s2 hq h
    obtain ⟨hunset, hmi, -⟩ := getNextMove_spec g rules sorter HS HR gs.st s hq m s2 h
    exact (setSideStatus_unsetCount g orc gs m hunset hmi.1 hmi.2.1 hmi.2.2).2
  · intro gs s hq
    obtain ⟨gsf, sf, k, hrun, hk⟩ := solveAllGo_term g orc rules vicinity HR HV
      (unsetCount g gs.st + 1) gs s 0 hq (Nat.lt_succ_self _)
    exact ⟨gsf, sf, k, hrun, by omega⟩

/-- C1 (witness): on the one-side board with empty rule catalogues and a
fresh solver state, `solveAll` terminates with zero applied moves. -/
theorem solver_moves_unset_and_terminate_witness :
    ∃ gsf sf k, solveAll oneSideGraph ⟨fun _ => 0, fun _ => 0⟩ (fun _ => []) (fun _ _ => [])
        ⟨allUnset, fun _ => 0, []⟩ SolverState.init = some (gsf, sf, k)
      ∧ k ≤ unsetCount oneSideGraph (⟨allUnset, fun _ => 0, []⟩ : GameState).st :=
  (solver_moves_unset_and_terminate oneSideGraph ⟨fun _ => 0, fun _ => 0⟩ (fun _ => [])
      (fun _ _ => []) id (fun _ _ h => h)
      (fun _ p hp => absurd hp (List.not_mem_nil p))
      (fun _ _ p hp => absurd hp (List.not_mem_nil p))).2.2.2
    ⟨allUnset, fun _ => 0, []⟩ SolverState.init
    (fun m hm => absurd hm (List.not_mem_nil m))

/-!
## C8: faction propagation
-/

/-- The faction flood never overwrites a cell whose faction is already
resolved. -/
theorem setFaction_preserve (b : FactionBoard) (st : Nat → SideStatus) :
    ∀ (fuel : Nat) (c : Nat) (f : CellFaction) (fm : Nat → CellFaction) (x : Nat),
      fm x ≠ .UNKNOWN → setFaction b st fuel c f fm x = fm x := by
  intro fuel
  induction fuel with
  | zero => intro c f fm x hx; rfl
  | succ fuel ih =>
    intro c f fm x hx
    unfold setFaction
    by_cases hg : fm c ≠ f ∧ fm c = .UNKNOWN
    · rw [if_pos hg]
      have hxc : x ≠ c := fun he => hx (he ▸ hg.2)
      have hbase : updFn fm c f x = fm x := by simp [updFn, hxc]
      have hfold : ∀ (l : List HexSideDir) (acc : Nat → CellFaction), acc x ≠ .UNKNOWN →
          (l.foldl (fun acc d =>
            match b.adjCell c d with
            | none => acc
            | some c2 =>
              if st (b.cellSide c d) = .ACTIVE then
                setFaction b st fuel c2 f.opposite
                  (if st (b.cellSide c d) = .BLANK then setFaction b st fuel c2 f acc else acc)
              else
                if st (b.cellSide c d) = .BLANK then setFaction b st fuel c2 f acc
                else acc) acc) x = acc x := by
        intro l
        induction l with
        | nil => intro acc ha; rfl
        | cons d l ihl =>
          intro acc ha
          rw [List.foldl_cons]
          have hstep : (match b.adjCell c d with
              | none => acc
              | some c2 =>
                if st (b.cellSide c d) = SideStatus.ACTIVE then
                  setFaction b st fuel c2 f.opposite
                    (if st (b.cellSide c d) = SideStatus.BLANK
                      then setFaction b st fuel c2 f acc else acc)
                else
                  if st (b.cellSide c d) = SideStatus.BLANK then setFaction b st fuel c2 f acc
                  else acc) x = acc x := by
            cases b.adjCell c d with
            | none => rfl
            | some c2 =>
              dsimp only
              have hinner : (if st (b.cellSide c d) = SideStatus.BLANK
                  then setFaction b st fuel c2 f acc else acc) x = acc x := by
                by_cases hbl : st (b.cellSide c d) = SideStatus.BLANK
                · rw [if_pos hbl]
                  exact ih c2 f acc x ha
                · rw [if_neg hbl]
              by_cases hac : st (b.cellSide c d) = SideStatus.ACTIVE
              · rw [if_pos hac]
                rw [ih c2 f.opposite _ x (by rw [hinner]; exact ha)]
                exact hinner
              · rw [if_neg hac]
                exact hinner
          rw [ihl _ (by rw [hstep]; exact ha)]
          exact hstep
      rw [hfold HexSideDir.all (updFn fm c f) (by rw [hbase]; exact hx)]
      exact hbase
    · rw [if_neg hg]

/-- The faction flood does nothing on a call whose target cell is already
resolved. -/
theorem setFaction_noop (b : FactionBoard) (st : Nat → SideStatus) (fuel : Nat) (c : Nat)
    (f : CellFaction) (fm : Nat → CellFaction) (h : fm c ≠ .UNKNOWN) :
    setFaction b st fuel c f fm = fm := by
  cases fuel with
  | zero => rfl
  | succ fuel =>
    unfold setFaction
    rw [if_neg (fun hg => h hg.2)]

/-- An effective faction flood writes its seed cell. -/
theorem setFaction_writes_seed (b : FactionBoard) (st : Nat → SideStatus) (fuel : Nat)
    (c : Nat) (f : CellFaction) (fm : Nat → CellFaction) (hc : fm c = .UNKNOWN)
    (hf : f ≠ .UNKNOWN) :
    setFaction b st (fuel + 1) c f fm c = f := by
  unfold setFaction
  rw [if_pos ⟨fun he => hf (hc ▸ he.symm), hc⟩]
  have hbase : updFn fm c f c = f := by simp [updFn]
  have hfold : ∀ (l : List HexSideDir) (acc : Nat → CellFaction), acc c ≠ .UNKNOWN →
      (l.foldl (fun acc d =>
        match b.adjCell c d with
        | none => acc
        | some c2 =>
          if st (b.cellSide c d) = .ACTIVE then
            setFaction b st fuel c2 f.opposite
              (if st (b.cellSide c d) = .BLANK then setFaction b st fuel c2 f acc else acc)
          else
            if st (b.cellSide c d) = .BLANK then setFaction b st fuel c2 f acc
            else acc) acc) c = acc c := by
    intro l
    induction l with
    | nil => intro acc ha; rfl
    | cons d l ihl =>
      intro acc ha
      rw [List.foldl_cons]
      have hstep : (match b.adjCell c d with
          | none => acc
          | some c2 =>
            if st (b.cellSide c d) = SideStatus.ACTIVE then
              setFaction b st fuel c2 f.opposite
                (if st (b.cellSide c d) = SideStatus.BLANK
                  then setFaction b st fuel c2 f acc else acc)
            else
              if st (b.cellSide c d) = SideStatus.BLANK then setFaction b st fuel c2 f acc
              else acc) c = acc c := by
        cases b.adjCell c d with
        | none => rfl
        | some c2 =>
          dsimp only
          have hinner : (if st (b.cellSide c d) = SideStatus.BLANK
              then setFaction b st fuel c2 f acc else acc) c = acc c := by
            by_cases hbl : st (b.cellSide c d) = SideStatus.BLANK
            · rw [if_pos hbl]
              exact setFaction_preserve b st fuel c2 f acc c ha
            · rw [if_neg hbl]
          by_cases hac : st (b.cellSide c d) = SideStatus.ACTIVE
          · rw [if_pos hac]
            rw [setFaction_preserve b st fuel c2 f.opposite _ c (by rw [hinner]; exact ha)]
            exact hinner
          · rw [if_neg hac]
            exact hinner
      rw [ihl _ (by rw [hstep]; exact ha)]
      exact hstep
  rw [hfold HexSideDir.all (updFn fm c f) (by rw [hbase]; exact hf)]
  exact hbase

/-- Relation between a faction map before and after a propagation phase:
every changed cell was UNKNOWN before and its new value is justified by a
propagation chain from the seed `(c0, f0)`. -/
def WriteSpec (b : FactionBoard) (st : Nat → SideStatus) (c0 : Nat) (f0 : CellFaction)
    (pre post : Nat → CellFaction) : Prop :=
  ∀ x, post x ≠ pre x → pre x = .UNKNOWN ∧ Justified b st c0 f0 x (post x)

theorem writeSpec_refl (b : FactionBoard) (st : Nat → SideStatus) (c0 : Nat)
    (f0 : CellFaction) (pre : Nat → CellFaction) : WriteSpec b st c0 f0 pre pre := by
  intro x hx
  exact absurd rfl hx

theorem writeSpec_trans (b : FactionBoard) (st : Nat → SideStatus) (c0 : Nat)
    (f0 : CellFaction) (pre mid post : Nat → CellFaction)
    (h1 : WriteSpec b st c0 f0 pre mid) (h2 : WriteSpec b st c0 f0 mid post) :
    WriteSpec b st c0 f0 pre post := by
  intro x hx
  by_cases hpm : post x = mid x
  · have hd : mid x ≠ pre x := fun he => hx (hpm.trans he)
    obtain ⟨hu, hj⟩ := h1 x hd
    exact ⟨hu, hpm ▸ hj⟩
  · obtain ⟨hu2, hj2⟩ := h2 x hpm
    refine ⟨?_, hj2⟩
    by_cases hmp : mid x = pre x
    · exact hmp ▸ hu2
    · exact (h1 x hmp).1

/-- Every cell the faction flood changes was UNKNOWN before, and its new
value is justified by a propagation chain from the current call when that
call itself is justified from the original seed. -/
theorem setFaction_justified (b : FactionBoard) (st : Nat → SideStatus) (c0 : Nat)
    (f0 : CellFaction) :
    ∀ (fuel : Nat) (c : Nat) (f : CellFaction) (fm : Nat → CellFaction),
      Justified b st c0 f0 c f →
      WriteSpec b st c0 f0 fm (setFaction b st fuel c f fm) := by
  intro fuel
  induction fuel with
  | zero => intro c f fm _; exact writeSpec_refl b st c0 f0 fm
  | succ fuel ih =>
    intro c f fm hj
    unfold setFaction
    by_cases hg : fm c ≠ f ∧ fm c = .UNKNOWN
    · rw [if_pos hg]
      have hbase : WriteSpec b st c0 f0 fm (updFn fm c f) := by
        intro x hx
        by_cases hxc : x = c
        · subst hxc
          refine ⟨hg.2, ?_⟩
          have : updFn fm x f x = f := by simp [updFn]
          rw [this]
          exact hj
        · exact absurd (by simp [updFn, hxc]) hx
      have hstepSpec : ∀ (acc : Nat → CellFaction) (d : HexSideDir),
          WriteSpec b st c0 f0 acc
            ((fun acc d =>
              match b.adjCell c d with
              | none => acc
              | some c2 =>
                if st (b.cellSide c d) = .ACTIVE then
                  setFaction b st fuel c2 f.opposite
                    (if st (b.cellSide c d) = .BLANK then setFaction b st fuel c2 f acc else acc)
                else
                  if st (b.cellSide c d) = .BLANK then setFaction b st fuel c2 f acc
                  else acc) acc d) := by
        intro acc d
        dsimp only
        cases hadj : b.adjCell c d with
        | none => exact writeSpec_refl b st c0 f0 acc
        | some c2 =>
          dsimp only
          have hinner : WriteSpec b st c0 f0 acc
              (if st (b.cellSide c d) = SideStatus.BLANK
                then setFaction b st fuel c2 f acc else acc) := by
            by_cases hbl : st (b.cellSide c d) = SideStatus.BLANK
            · rw [if_pos hbl]
              exact ih c2 f acc (Justified.blankStep hj hadj hbl)
            · rw [if_neg hbl]
              exact writeSpec_refl b st c0 f0 acc
          by_cases hac : st (b.cellSide c d) = SideStatus.ACTIVE
          · rw [if_pos hac]
            exact writeSpec_trans b st c0 f0 _ _ _ hinner
              (ih c2 f.opposite _ (Justified.activeStep hj hadj hac))
          · rw [if_neg hac]
            exact hinner
      have hfold : ∀ (l : List HexSideDir) (acc : Nat → CellFaction),
          WriteSpec b st c0 f0 fm acc →
          WriteSpec b st c0 f0 fm
            (l.foldl (fun acc d =>
              match b.adjCell c d with
              | none => acc
              | some c2 =>
                if st (b.cellSide c d) = .ACTIVE then
                  setFaction b st fuel c2 f.opposite
                    (if st (b.cellSide c d) = .BLANK then setFaction b st fuel c2 f acc else acc)
                else
                  if st (b.cellSide c d) = .BLANK then setFaction b st fuel c2 f acc
                  else acc) acc) := by
        intro l
        induction l with
        | nil => intro acc ha; exact ha
        | cons d l ihl =>
          intro acc ha
          rw [List.foldl_cons]
          exact ihl _ (writeSpec_trans b st c0 f0 _ _ _ ha (hstepSpec acc d))
      exact hfold HexSideDir.all (updFn fm c f) hbase
    · rw [if_neg hg]
      exact writeSpec_refl b st c0 f0 fm

/-- A direction-classification, when it fires, is exactly the boundary
rule of the source: an outward BLANK side gives OUTSIDE, an outward ACTIVE
side gives INSIDE, and a side toward a resolved neighbor inherits that
neighbor's faction through BLANK and its opposite through ACTIVE; the
produced faction is never UNKNOWN. -/
theorem seedActionAt_some_spec (b : FactionBoard) (st : Nat → SideStatus)
    (fm : Nat → CellFaction) (c : Nat) (d : HexSideDir) (f : CellFaction)
    (h : seedActionAt b st fm c d = some f) :
    (match b.adjCell c d with
      | none =>
        (st (b.cellSide c d) = .BLANK ∧ f = .OUTSIDE) ∨
          (st (b.cellSide c d) = .ACTIVE ∧ f = .INSIDE)
      | some c2 =>
        fm c2 ≠ .UNKNOWN ∧
          ((st (b.cellSide c d) = .BLANK ∧ f = fm c2) ∨
            (st (b.cellSide c d) = .ACTIVE ∧ f = (fm c2).opposite))) ∧
      f ≠ .UNKNOWN := by
  unfold seedActionAt at h
  cases hadj : b.adjCell c d with
  | none =>
    rw [hadj] at h
    dsimp only at h ⊢
    by_cases hbl : st (b.cellSide c d) = SideStatus.BLANK
    · rw [if_pos hbl] at h
      injection h with h
      exact ⟨Or.inl ⟨hbl, h.symm⟩, by rw [← h]; intro hq; cases hq⟩
    · rw [if_neg hbl] at h
      by_cases hac : st (b.cellSide c d) = SideStatus.ACTIVE
      · rw [if_pos hac] at h
        injection h with h
        exact ⟨Or.inr ⟨hac, h.symm⟩, by rw [← h]; intro hq; cases hq⟩
      · rw [if_neg hac] at h
        cases h
  | some c2 =>
    rw [hadj] at h
    dsimp only at h ⊢
    by_cases hu : fm c2 ≠ CellFaction.UNKNOWN
    · rw [if_pos hu] at h
      by_cases hbl : st (b.cellSide c d) = SideStatus.BLANK
      · rw [if_pos hbl] at h
        injection h with h
        exact ⟨⟨hu, Or.inl ⟨hbl, h.symm⟩⟩, h ▸ hu⟩
      · rw [if_neg hbl] at h
        by_cases hac : st (b.cellSide c d) = SideStatus.ACTIVE
        · rw [if_pos hac] at h
          injection h with h
          refine ⟨⟨hu, Or.inr ⟨hac, h.symm⟩⟩, ?_⟩
          rw [← h]
          cases hfc : fm c2 with
          | INSIDE => intro hq; cases hq
          | OUTSIDE => intro hq; cases hq
          | UNKNOWN => exact absurd hfc hu
        · rw [if_neg hac] at h
          cases h
    · rw [if_neg hu] at h
      cases h

/-- Once the target cell of `processEdgeCell` is resolved, its remaining
direction scan changes nothing: each `setFaction` call it makes bounces
off the no-overwrite guard. -/
theorem processFold_noop (b : FactionBoard) (st : Nat → SideStatus) (c : Nat) :
    ∀ (l : List HexSideDir) (acc : Nat → CellFaction), acc c ≠ .UNKNOWN →
      l.foldl (fun acc d =>
        match seedActionAt b st acc c d with
        | some f => setFaction b st (factionFuel b) c f acc
        | none => acc) acc = acc := by
  intro l
  induction l with
  | nil => intro acc _; rfl
  | cons d l ihl =>
    intro acc ha
    rw [List.foldl_cons]
    have hstep : (match seedActionAt b st acc c d with
        | some f => setFaction b st (factionFuel b) c f acc
        | none => acc) = acc := by
      cases seedActionAt b st acc c d with
      | none => rfl
      | some f => exact setFaction_noop b st (factionFuel b) c f acc ha
    rw [hstep]
    exact ihl acc ha

/-- `processEdgeCell` on an UNKNOWN cell performs exactly the flood of the
first direction-classification that fires (in enum order), and nothing
when none fires. -/
theorem processEdgeCell_char (b : FactionBoard) (st : Nat → SideStatus) (c : Nat)
    (fm : Nat → CellFaction) (hc : fm c = .UNKNOWN) :
    processEdgeCell b st c fm =
      (match firstSeedAction b st fm c with
        | none => fm
        | some f => setFaction b st (factionFuel b) c f fm) := by
  unfold processEdgeCell
  rw [if_neg (by simp [hc])]
  unfold firstSeedAction
  have hfold : ∀ (l : List HexSideDir) (acc : Nat → CellFaction), acc c = .UNKNOWN →
      l.foldl (fun acc d =>
        match seedActionAt b st acc c d with
        | some f => setFaction b st (factionFuel b) c f acc
        | none => acc) acc =
      (match l.findSome? (seedActionAt b st acc c) with
        | none => acc
        | some f => setFaction b st (factionFuel b) c f acc) := by
    intro l
    induction l with
    | nil => intro acc _; rfl
    | cons d l ihl =>
      intro acc ha
      rw [List.foldl_cons, List.findSome?_cons]
      cases hd : seedActionAt b st acc c d with
      | none =>
        dsimp only
        exact ihl acc ha
      | some f =>
        dsimp only
        have hfne : f ≠ .UNKNOWN := (seedActionAt_some_spec b st acc c d f hd).2
        have hwrote : setFaction b st (factionFuel b) c f acc c = f :=
          setFaction_writes_seed b st b.cells.length c f acc ha hfne
        exact processFold_noop b st c l _ (by rw [hwrote]; exact hfne)
  exact hfold HexSideDir.all fm hc

theorem mem_hexSideDir_all (d : HexSideDir) : d ∈ HexSideDir.all := by
  cases d <;> decide

/-- Membership characterization of the faction proposal scan: a proposal
`(sid, v)` is emitted exactly for an UNSET side of a resolved cell whose
far-side faction is known, ACTIVE when the far faction differs from the
cell's and BLANK when it agrees. -/
theorem mem_factionProposals_iff (b : FactionBoard) (st : Nat → SideStatus)
    (fm : Nat → CellFaction) (sid : Nat) (v : SideStatus) :
    (sid, v) ∈ factionProposals b st fm ↔
      ∃ c d, c ∈ b.cells ∧ fm c ≠ .UNKNOWN ∧ sid = b.cellSide c d ∧
        st sid = .UNSET ∧ factionFar b fm c d ≠ .UNKNOWN ∧
        ((v = .ACTIVE ∧ factionFar b fm c d ≠ fm c) ∨
          (v = .BLANK ∧ factionFar b fm c d = fm c)) := by
  constructor
  · intro hmem
    unfold factionProposals at hmem
    rw [List.mem_flatMap] at hmem
    obtain ⟨c, hc, hmem⟩ := hmem
    by_cases hu : fm c = CellFaction.UNKNOWN
    · rw [if_pos hu] at hmem
      exact absurd hmem (List.not_mem_nil _)
    · rw [if_neg hu] at hmem
      rw [List.mem_filterMap] at hmem
      obtain ⟨d, _, hd⟩ := hmem
      refine ⟨c, d, hc, hu, ?_⟩
      by_cases hunset : st (b.cellSide c d) = SideStatus.UNSET
      · rw [if_pos hunset] at hd
        by_cases hA : factionFar b fm c d ≠ CellFaction.UNKNOWN ∧ factionFar b fm c d ≠ fm c
        · rw [if_pos hA] at hd
          injection hd with hd
          have h1 : b.cellSide c d = sid := congrArg Prod.fst hd
          have h2 : SideStatus.ACTIVE = v := congrArg Prod.snd hd
          exact ⟨h1.symm, h1 ▸ hunset, hA.1, Or.inl ⟨h2.symm, hA.2⟩⟩
        · rw [if_neg hA] at hd
          by_cases hB : factionFar b fm c d ≠ CellFaction.UNKNOWN ∧ factionFar b fm c d = fm c
          · rw [if_pos hB] at hd
            injection hd with hd
            have h1 : b.cellSide c d = sid := congrArg Prod.fst hd
            have h2 : SideStatus.BLANK = v := congrArg Prod.snd hd
            exact ⟨h1.symm, h1 ▸ hunset, hB.1, Or.inr ⟨h2.symm, hB.2⟩⟩
          · rw [if_neg hB] at hd
            cases hd
      · rw [if_neg hunset] at hd
        cases hd
  · intro h
    obtain ⟨c, d, hc, hu, hsid, hunset, hfar, hv⟩ := h
    unfold factionProposals
    rw [List.mem_flatMap]
    refine ⟨c, hc, ?_⟩
    rw [if_neg hu, List.mem_filterMap]
    refine ⟨d, mem_hexSideDir_all d, ?_⟩
    dsimp only
    subst hsid
    rw [if_pos hunset]
    cases hv with
    | inl h =>
      rw [if_pos ⟨hfar, h.2⟩, h.1]
    | inr h =>
      rw [if_neg (fun hA => hA.2 h.2), if_pos ⟨hfar, h.2⟩, h.1]

/-- A two-cell board (one cell per row, cell 0 above cell 1 sharing side
3), used to exercise the faction propagator on concrete data. -/
def twoCellSide : Nat → HexSideDir → Nat
  | 0, .UL => 0
  | 0, .UR => 1
  | 0, .R => 2
  | 0, .LR => 3
  | 0, .LL => 4
  | 0, .L => 5
  | 1, .UL => 3
  | 1, .UR => 6
  | 1, .R => 7
  | 1, .LR => 8
  | 1, .LL => 9
  | 1, .L => 10
  | _, _ => 0

def twoCellBoard : FactionBoard where
  cells := [0, 1]
  boardRows := [[0], [1]]
  adjCell := fun c d =>
    if c = 0 ∧ d = .LR then some 1 else if c = 1 ∧ d = .UL then some 0 else none
  cellSide := twoCellSide

/-- Side 0 (an outward side of cell 0) is BLANK; everything else UNSET. -/
def stTwo : Nat → SideStatus :=
  fun s => if s = 0 then .BLANK else .UNSET

/-- C8: `recalculateFactions` resets every board cell to UNKNOWN and then
runs the boundary-row seeding scan on the reset map; the faction flood
`setFaction` never overwrites an already-resolved cell, and every cell it
changes was UNKNOWN and receives a value justified by a propagation chain
(unchanged through a BLANK side, inverted through an ACTIVE side) from the
seed write; a boundary seed classification fires exactly per the source
rule (outward BLANK gives OUTSIDE, outward ACTIVE gives INSIDE, a resolved
neighbor's faction is inherited through BLANK and inverted through
ACTIVE), and `processEdgeCell` on an UNKNOWN cell floods exactly the first
classification that fires; afterwards `inspectFactions` proposes, for each
UNSET side of a resolved cell, ACTIVE exactly when the known far-side
faction (neighbor's, or OUTSIDE with no neighbor) differs from the cell's
own and BLANK exactly when it agrees. -/
theorem faction_propagation_spec (b : FactionBoard) (st : Nat → SideStatus)
    (fm : Nat → CellFaction) :
    (∀ c ∈ b.cells, resetFactions b fm c = .UNKNOWN) ∧
    recalculateFactions b st fm = seedRows b st (resetFactions b fm) ∧
    (∀ fuel c f g x, g x ≠ .UNKNOWN → setFaction b st fuel c f g x = g x) ∧
    (∀ fuel c f g x, setFaction b st fuel c f g x ≠ g x →
        g x = .UNKNOWN ∧ Justified b st c f x (setFaction b st fuel c f g x)) ∧
    (∀ c d g f, seedActionAt b st g c d = some f →
        (match b.adjCell c d with
          | none =>
            (st (b.cellSide c d) = .BLANK ∧ f = .OUTSIDE) ∨
              (st (b.cellSide c d) = .ACTIVE ∧ f = .INSIDE)
          | some c2 =>
            g c2 ≠ .UNKNOWN ∧
              ((st (b.cellSide c d) = .BLANK ∧ f = g c2) ∨
                (st (b.cellSide c d) = .ACTIVE ∧ f = (g c2).opposite))) ∧
          f ≠ .UNKNOWN) ∧
    (∀ c g, g c = .UNKNOWN → processEdgeCell b st c g =
        (match firstSeedAction b st g c with
          | none => g
          | some f => setFaction b st (factionFuel b) c f g)) ∧
    (∀ sid v, (sid, v) ∈ inspectFactions b st fm ↔
        ∃ c d, c ∈ b.cells ∧ recalculateFactions b st fm c ≠ .UNKNOWN ∧
          sid = b.cellSide c d ∧ st sid = .UNSET ∧
          factionFar b (recalculateFactions b st fm) c d ≠ .UNKNOWN ∧
          ((v = .ACTIVE ∧
              factionFar b (recalculateFactions b st fm) c d ≠ recalculateFactions b st fm c) ∨
            (v = .BLANK ∧
              factionFar b (recalculateFactions b st fm) c d = recalculateFactions b st fm c))) := by
  refine ⟨?_, rfl, ?_, ?_, ?_, ?_, ?_⟩
  · intro c hc
    simp [resetFactions, hc]
  · exact fun fuel c f g x hx => setFaction_preserve b st fuel c f g x hx
  · exact fun fuel c f g x hx => setFaction_justified b st c f fuel c f g Justified.seed x hx
  · exact fun c d g f h => seedActionAt_some_spec b st g c d f h
  · exact fun c g hc => processEdgeCell_char b st c g hc
  · exact fun sid v => mem_factionProposals_iff b st (recalculateFactions b st fm) sid v

/-- C8 witness: on the two-cell board with outward side 0 BLANK, the
boundary scan of cell 0 resolves it to OUTSIDE. -/
theorem faction_propagation_spec_witness :
    processEdgeCell twoCellBoard stTwo 0 (fun _ => CellFaction.UNKNOWN) 0 =
      CellFaction.OUTSIDE := by
  have h := (faction_propagation_spec twoCellBoard stTwo
    (fun _ => CellFaction.UNKNOWN)).2.2.2.2.2.1 0 (fun _ => CellFaction.UNKNOWN) rfl
  rw [h]
  decide

end Hexa
